import Mathlib

/-!
Verification of the transcript parsing and normalization pipeline of the
lhotse Arabic-corpus recipes (callhome_gulf.py, callhome_iraqi.py,
callhome_levant.py, qasr.py).

Python strings are modelled as `List Char` (`Str`).  Python character
classes used by the regexes (`\s`, `\d`, the Arabic block `؀-ۿ`)
are modelled as explicit predicates; `str.lower` is modelled on the ASCII
range (the character classes reachable in the pipeline after filtering are
caseless outside A-Z, so this agrees with Python on all cleaned outputs).
-/

set_option maxRecDepth 200000

abbrev Str := List Char

/-- Unicode whitespace as matched by Python's `str.isspace`, `str.split()`,
`str.strip()` and the `re` class `\s` (the exact CPython set). -/
def pyIsSpace (c : Char) : Bool :=
  c.toNat ∈ [9, 10, 11, 12, 13, 28, 29, 30, 31, 32, 133, 160, 0x1680,
    0x2000, 0x2001, 0x2002, 0x2003, 0x2004, 0x2005, 0x2006, 0x2007,
    0x2008, 0x2009, 0x200A, 0x2028, 0x2029, 0x202F, 0x205F, 0x3000]

/-- ASCII decimal digit `0-9` (the regex class `[0-9]`). -/
def isAsciiDigit (c : Char) : Bool :=
  decide (48 ≤ c.toNat) && decide (c.toNat ≤ 57)

/-- The regex class `\d` (Unicode Nd).  Modelled on the ranges reachable in
these corpora: ASCII digits, Arabic-Indic `٠-٩` and extended Arabic-Indic
`۰-۹`; other Nd ranges do not occur in the pipeline's alphabets. -/
def pyIsDigit (c : Char) : Bool :=
  isAsciiDigit c
  || (decide (0x660 ≤ c.toNat) && decide (c.toNat ≤ 0x669))
  || (decide (0x6F0 ≤ c.toNat) && decide (c.toNat ≤ 0x6F9))

/-- The Arabic block `؀-ۿ` used by `remove_non_alphanumeric`. -/
def inArabicBlock (c : Char) : Bool :=
  decide (0x600 ≤ c.toNat) && decide (c.toNat ≤ 0x6FF)

def isLowerAZ (c : Char) : Bool :=
  decide (97 ≤ c.toNat) && decide (c.toNat ≤ 122)

def isUpperAZ (c : Char) : Bool :=
  decide (65 ≤ c.toNat) && decide (c.toNat ≤ 90)

/-- Python `str.lower`, modelled on ASCII.  All characters kept by
`remove_non_alphanumeric` (Arabic block, whitespace, digits, `a-z`) are
caseless, so the model agrees with CPython on every cleaned string. -/
def pyLower (c : Char) : Char :=
  if isUpperAZ c then Char.ofNat (c.toNat + 32) else c

/-- The diacritic class removed by `remove_diacritics`:
`[ً-ْ۔ٰٴە-ۭ]`. -/
def isDiacritic (c : Char) : Bool :=
  (decide (0x64B ≤ c.toNat) && decide (c.toNat ≤ 0x652))
  || decide (c.toNat = 0x6D4)
  || decide (c.toNat = 0x670)
  || decide (c.toNat = 0x674)
  || (decide (0x6D5 ≤ c.toNat) && decide (c.toNat ≤ 0x6ED))

/-- The union of `arabic_punctuations` and `string.punctuation` built by
`remove_punctuations` (a Python set; written out literally).  Characters
that the task's source encoding cannot carry in literals are given by code
point: 34 `"`, 39 apostrophe, 92 backslash, 96 grave accent, 123 and 125
the curly braces. -/
def puncts : List Char :=
  ['﴿', '﴾', Char.ofNat 96, '÷', '×', '؛', '<', '>', '_', '(', ')', '*',
   '&', '^', '%', ']', '[', 'ـ', '،', '/', ':', Char.ofNat 34, '؟', '.',
   ',', Char.ofNat 39, Char.ofNat 123, Char.ofNat 125, '~', '¦', '+', '|',
   '!', '”', '…', '“', '–', '#', '$', '-', ';', '=', '?', '@',
   Char.ofNat 92]

def isPunct (c : Char) : Bool := puncts.contains c

/-- The character class kept by `remove_non_alphanumeric`'s regex
`[^؀-ۿ\s\da-z]+` (substituted by the empty string). -/
def keptChar (c : Char) : Bool :=
  inArabicBlock c || pyIsSpace c || pyIsDigit c || isLowerAZ c

theorem length_dropWhile_le (p : α → Bool) (l : List α) :
    (l.dropWhile p).length ≤ l.length := by
  induction l with
  | nil => simp [List.dropWhile]
  | cons a l ih =>
    simp only [List.dropWhile]
    split
    · exact Nat.le_trans ih (Nat.le_succ _)
    · exact Nat.le_refl _

/-- Python `str.replace pat rep` (all non-overlapping occurrences, left to
right), via structural recursion on a fuel that bounds the number of scan
steps (the input length suffices).  The word lists fed to it are all
non-empty, so the behaviour on an empty pattern is irrelevant; the guard
makes the function total. -/
def replaceAllF (pat rep : Str) : ℕ → Str → Str
  | _, [] => []
  | 0, t => t
  | f + 1, c :: cs =>
    if pat.isPrefixOf (c :: cs) ∧ pat ≠ [] then
      rep ++ replaceAllF pat rep f (cs.drop (pat.length - 1))
    else
      c :: replaceAllF pat rep f cs

def replaceAll (pat rep t : Str) : Str := replaceAllF pat rep t.length t

/-- `remove_special_words`: replace each word of the corpus word list by the
empty string, in list order. -/
def removeWords (ws : List Str) (t : Str) : Str :=
  ws.foldl (fun acc w => replaceAll w [] acc) t

/-- `remove_diacritics` (identical in all four recipe files). -/
def removeDiacritics (t : Str) : Str := t.filter (fun c => !isDiacritic c)

/-- `remove_punctuations` in callhome_gulf / callhome_levant / qasr:
each punctuation character is replaced by a space.  The Python loop runs
over a set; single-character replacement is order-independent, so it is the
characterwise map. -/
def removePunctSpace (t : Str) : Str :=
  t.map (fun c => if isPunct c then ' ' else c)

/-- `remove_punctuations` in callhome_iraqi: each punctuation character is
replaced by the empty string, i.e. dropped. -/
def removePunctDrop (t : Str) : Str :=
  t.filter (fun c => !isPunct c)

/-- `remove_non_alphanumeric`: lower-case, then delete every character
outside `[؀-ۿ\s\da-z]`. -/
def removeNonAlphanumeric (t : Str) : Str :=
  (t.map pyLower).filter keptChar

/-- First substitution of `remove_extra_space`: `re.sub(r"\s+", " ", text)`
— every maximal whitespace run becomes one space. -/
def collapseWS : Str → Str
  | [] => []
  | [c] => if pyIsSpace c then [' '] else [c]
  | a :: b :: t =>
    if pyIsSpace a && pyIsSpace b then collapseWS (b :: t)
    else (if pyIsSpace a then ' ' else a) :: collapseWS (b :: t)

/-- Second substitution of `remove_extra_space`:
`re.sub(r"\s+\.\s+", ".", text)`.  A match at a position requires a maximal
whitespace run followed by a dot followed by more whitespace (the greedy
`\s+` cannot backtrack onto the dot); scanning advances one character when
no match starts at the current position. -/
def spDotF : ℕ → Str → Str
  | _, [] => []
  | 0, t => t
  | f + 1, c :: cs =>
    if pyIsSpace c then
      match (c :: cs).dropWhile pyIsSpace with
      | '.' :: d :: r3 =>
        if pyIsSpace d then '.' :: spDotF f ((d :: r3).dropWhile pyIsSpace)
        else c :: spDotF f cs
      | _ => c :: spDotF f cs
    else c :: spDotF f cs

def spDot (t : Str) : Str := spDotF t.length t

/-- `remove_extra_space` (identical in all four recipe files). -/
def removeExtraSpace (t : Str) : Str := spDot (collapseWS t)

/-- Python `str.strip()`: remove leading and trailing whitespace. -/
def pyStrip (t : Str) : Str :=
  ((t.dropWhile pyIsSpace).reverse.dropWhile pyIsSpace).reverse

/-- The `eastern_to_western` table of qasr's `east_to_west_num`. -/
def eastMap : List (Char × Char) :=
  [('٠', '0'), ('١', '1'), ('٢', '2'), ('٣', '3'), ('٤', '4'),
   ('٥', '5'), ('٦', '6'), ('٧', '7'), ('٨', '8'), ('٩', '9'),
   ('٪', '%'), ('_', ' '), ('ڤ', 'ف'), ('|', ' ')]

def eastToWestChar (c : Char) : Char :=
  match eastMap.find? (fun p => p.1 = c) with
  | some p => p.2
  | none => c

/-- `east_to_west_num`: `str.translate` with the table above. -/
def eastToWest (t : Str) : Str := t.map eastToWestChar

/-- Python `str.split()` with no separator: split on whitespace runs,
dropping empty tokens. -/
def splitWSF : ℕ → Str → List Str
  | 0, _ => []
  | f + 1, t =>
    match t.dropWhile pyIsSpace with
    | [] => []
    | c :: cs =>
      (c :: cs.takeWhile (fun d => !pyIsSpace d))
        :: splitWSF f (cs.dropWhile (fun d => !pyIsSpace d))

def splitWS (t : Str) : List Str := splitWSF t.length t

/-- Python `" ".join`. -/
def joinSp : List Str → Str
  | [] => []
  | [w] => w
  | w :: ws => w ++ ' ' :: joinSp ws

/-- Python `str.isnumeric`, modelled on the digit ranges of `pyIsDigit`
(the only numeric characters in the pipeline's alphabets). -/
def pyIsNumeric (c : Char) : Bool := pyIsDigit c

/-- The filter used by qasr's `remove_single_char_word`:
`len(word) > 1 or word.isnumeric()`. -/
def keepWord (w : Str) : Bool :=
  decide (1 < w.length) || (!w.isEmpty && w.all pyIsNumeric)

/-- qasr's `remove_single_char_word`: drop single-character non-numeric
words and re-join with single spaces. -/
def removeSingleCharWord (t : Str) : Str :=
  joinSp ((splitWS t).filter keepWord)

/-- `words_to_remove` of callhome_gulf.py. -/
def gulfWords : List Str :=
  (["(ضجة)", "(ضجة\\)", "(تنفس)", "(())", "(ضحك)", "(الشفة)",
    "(-ap Pronounced)", "(lam Pronounced)", "(FOR)", "(سعال)", "(عطس)",
    "(ENGLISH", "(FRENCH", "(KURDISH", "(PAKISTANI"]).map String.data

/-- `words_to_remove` of callhome_iraqi.py (textually the same list). -/
def iraqiWords : List Str := gulfWords

/-- `words_to_remove` of callhome_levant.py. -/
def levWords : List Str :=
  (["%ضجّة", "%أصوات", "%أجنبي", "(())", "%تنفّس", "%مهم", "%تداخل",
    "%تداخل\\", "%سعال", "%صمت", "%متكلمجديد", "%متكلمجديد\\",
    "%ضحك"]).map String.data

/-- `cleaning` of callhome_gulf.py. -/
def gulfCleaning (t : Str) : Str :=
  pyStrip (removeExtraSpace (removeNonAlphanumeric (removePunctSpace
    (removeDiacritics (removeWords gulfWords t)))))

/-- `cleaning` of callhome_iraqi.py (punctuation replaced by empty string
instead of space). -/
def iraqiCleaning (t : Str) : Str :=
  pyStrip (removeExtraSpace (removeNonAlphanumeric (removePunctDrop
    (removeDiacritics (removeWords iraqiWords t)))))

/-- `cleaning` of callhome_levant.py. -/
def levantCleaning (t : Str) : Str :=
  pyStrip (removeExtraSpace (removeNonAlphanumeric (removePunctSpace
    (removeDiacritics (removeWords levWords t)))))

/-- `cleaning` of qasr.py. -/
def qasrCleaning (t : Str) : Str :=
  removeExtraSpace (removeSingleCharWord (removeNonAlphanumeric
    (removeDiacritics (eastToWest (removePunctSpace t)))))

example : gulfCleaning "ألو (ضجة)".data = "ألو".data := by decide
example : qasrCleaning ".".data = "".data := by decide
example : qasrCleaning "٣ a ab".data = "3 ab".data := by decide

/-! ### Generic list helpers -/

theorem mem_of_mem_dropWhile {p : α → Bool} {l : List α} {a : α}
    (h : a ∈ l.dropWhile p) : a ∈ l := by
  induction l with
  | nil => simp [List.dropWhile] at h
  | cons b l ih =>
    rw [List.dropWhile_cons] at h
    split at h
    · exact List.mem_cons_of_mem _ (ih h)
    · exact h

theorem mem_of_mem_takeWhile {p : α → Bool} {l : List α} {a : α}
    (h : a ∈ l.takeWhile p) : a ∈ l := by
  induction l with
  | nil => simp [List.takeWhile] at h
  | cons b l ih =>
    rw [List.takeWhile_cons] at h
    split at h
    · rcases List.mem_cons.mp h with h | h
      · exact h ▸ List.mem_cons_self _ _
      · exact List.mem_cons_of_mem _ (ih h)
    · simp at h

theorem pred_of_mem_takeWhile {p : α → Bool} {l : List α} {a : α}
    (h : a ∈ l.takeWhile p) : p a = true := by
  induction l with
  | nil => simp [List.takeWhile] at h
  | cons b l ih =>
    rw [List.takeWhile_cons] at h
    split at h
    · rcases List.mem_cons.mp h with h | h
      · exact h ▸ (by assumption)
      · exact ih h
    · simp at h

theorem head_pred_of_dropWhile {p : α → Bool} {l : List α} {c : α} {cs : List α}
    (h : l.dropWhile p = c :: cs) : p c = false := by
  induction l with
  | nil => simp [List.dropWhile] at h
  | cons b l ih =>
    rw [List.dropWhile_cons] at h
    split at h
    · exact ih h
    · rename_i hb
      cases h
      simpa using hb

theorem dropWhile_eq_self_of_head {p : α → Bool} {l : List α}
    (h : ∀ c, l.head? = some c → p c = false) : l.dropWhile p = l := by
  cases l with
  | nil => simp [List.dropWhile]
  | cons a l => rw [List.dropWhile_cons, if_neg (by simp [h a rfl])]

theorem takeWhile_append_not {p : α → Bool} {w : List α} {x : α} {r : List α}
    (hw : ∀ c ∈ w, p c = true) (hx : p x = false) :
    (w ++ x :: r).takeWhile p = w := by
  induction w with
  | nil => simpa [List.takeWhile_cons] using hx
  | cons a w ih =>
    rw [List.cons_append, List.takeWhile_cons,
      if_pos (hw a (List.mem_cons_self _ _))]
    rw [ih (fun c hc => hw c (List.mem_cons_of_mem _ hc))]

theorem dropWhile_append_not {p : α → Bool} {w : List α} {x : α} {r : List α}
    (hw : ∀ c ∈ w, p c = true) (hx : p x = false) :
    (w ++ x :: r).dropWhile p = x :: r := by
  induction w with
  | nil => simp [List.dropWhile_cons, hx]
  | cons a w ih =>
    rw [List.cons_append, List.dropWhile_cons,
      if_pos (hw a (List.mem_cons_self _ _))]
    exact ih (fun c hc => hw c (List.mem_cons_of_mem _ hc))

theorem map_eq_self_of {f : α → α} {l : List α} (h : ∀ c ∈ l, f c = c) :
    l.map f = l := by
  induction l with
  | nil => rfl
  | cons a l ih =>
    rw [List.map_cons, h a (List.mem_cons_self _ _),
      ih (fun c hc => h c (List.mem_cons_of_mem _ hc))]

theorem chain'_of_all {R : α → α → Prop} {l : List α}
    (h : ∀ a ∈ l, ∀ b ∈ l, R a b) : l.Chain' R := by
  induction l with
  | nil => exact List.chain'_nil
  | cons a l ih =>
    cases l with
    | nil => exact List.chain'_singleton a
    | cons b t =>
      refine List.Chain'.cons (h a (by simp) b (by simp)) ?_
      exact ih (fun x hx y hy =>
        h x (List.mem_cons_of_mem _ hx) y (List.mem_cons_of_mem _ hy))

/-! ### Character class facts -/

theorem toNat_ofNat_valid {n : ℕ} (h : n < 0xd800) :
    (Char.ofNat n).toNat = n := by
  unfold Char.ofNat
  rw [dif_pos (Or.inl h)]
  rfl

theorem pyLower_eq_self {c : Char} (h : isUpperAZ c = false) :
    pyLower c = c := by
  unfold pyLower
  rw [h]
  rfl

theorem pyLower_cases (c : Char) :
    pyLower c = c ∨ (97 ≤ (pyLower c).toNat ∧ (pyLower c).toNat ≤ 122) := by
  unfold pyLower
  split
  · right
    rename_i h
    unfold isUpperAZ at h
    simp only [Bool.and_eq_true, decide_eq_true_eq] at h
    rw [toNat_ofNat_valid (by omega)]
    omega
  · left; rfl

theorem puncts_toNat_notLower : ∀ p ∈ puncts, p.toNat < 97 ∨ 122 < p.toNat := by
  decide

theorem isPunct_lower_false {d : Char} (h1 : 97 ≤ d.toNat) (h2 : d.toNat ≤ 122) :
    isPunct d = false := by
  unfold isPunct
  rw [Bool.eq_false_iff]
  intro hc
  rcases puncts_toNat_notLower d (by simpa using hc) with h | h <;> omega

theorem isDiacritic_lower_false {d : Char} (h1 : 97 ≤ d.toNat) (h2 : d.toNat ≤ 122) :
    isDiacritic d = false := by
  unfold isDiacritic
  simp only [Bool.or_eq_false_iff, Bool.and_eq_false_iff]
  refine ⟨⟨⟨⟨?_, ?_⟩, ?_⟩, ?_⟩, ?_⟩ <;>
    simp only [decide_eq_false_iff_not, Bool.and_eq_false_iff] <;> omega

theorem isUpperAZ_lower_false {d : Char} (h1 : 97 ≤ d.toNat) :
    isUpperAZ d = false := by
  unfold isUpperAZ
  simp only [Bool.and_eq_false_iff, decide_eq_false_iff_not]
  omega

theorem eastFirsts_toNat_notLower :
    ∀ p ∈ eastMap, p.1.toNat < 97 ∨ 122 < p.1.toNat := by decide

theorem eastToWestChar_eq_self_of_notin {c : Char}
    (h : ∀ p ∈ eastMap, p.1 ≠ c) : eastToWestChar c = c := by
  unfold eastToWestChar
  rw [List.find?_eq_none.mpr (fun p hp => by simp [h p hp])]

theorem eastToWestChar_lower {d : Char} (h1 : 97 ≤ d.toNat) (h2 : d.toNat ≤ 122) :
    eastToWestChar d = d := by
  refine eastToWestChar_eq_self_of_notin (fun p hp he => ?_)
  rcases eastFirsts_toNat_notLower p hp with h | h <;>
    (rw [he] at h; omega)

/-! ### Whitespace normal form -/

/-- Every whitespace character is a plain space, and no two adjacent
characters are both whitespace. -/
def WSNorm (t : Str) : Prop :=
  (∀ c ∈ t, pyIsSpace c = true → c = ' ') ∧
  t.Chain' (fun a b => ¬(pyIsSpace a = true ∧ pyIsSpace b = true))

/-- No leading and no trailing whitespace. -/
def TrimmedEnds (t : Str) : Prop :=
  (∀ c, t.head? = some c → pyIsSpace c = false) ∧
  (∀ c, t.getLast? = some c → pyIsSpace c = false)

theorem wsNorm_nil : WSNorm [] := ⟨by simp, List.chain'_nil⟩

theorem wsNorm_tail {a : Char} {t : Str} (h : WSNorm (a :: t)) : WSNorm t :=
  ⟨fun c hc => h.1 c (List.mem_cons_of_mem _ hc), h.2.tail⟩

theorem collapseWS_head {b : Char} (t : Str) (hb : pyIsSpace b = false) :
    ∃ r, collapseWS (b :: t) = b :: r := by
  cases t with
  | nil => exact ⟨[], by simp [collapseWS, hb]⟩
  | cons c t => exact ⟨collapseWS (c :: t), by simp [collapseWS, hb]⟩

theorem collapseWS_mem {t : Str} {c : Char} (h : c ∈ collapseWS t) :
    c ∈ t ∨ c = ' ' := by
  induction t with
  | nil => simp [collapseWS] at h
  | cons a t ih =>
    cases t with
    | nil =>
      simp only [collapseWS] at h
      split at h <;> simp at h <;> simp [h]
    | cons b t' =>
      simp only [collapseWS] at h
      split at h
      · rcases ih h with h | h
        · exact Or.inl (List.mem_cons_of_mem _ h)
        · exact Or.inr h
      · rcases List.mem_cons.mp h with h | h
        · split at h
          · exact Or.inr h
          · exact Or.inl (h ▸ List.mem_cons_self _ _)
        · rcases ih h with h | h
          · exact Or.inl (List.mem_cons_of_mem _ h)
          · exact Or.inr h

theorem collapseWS_wsNorm (t : Str) : WSNorm (collapseWS t) := by
  induction t with
  | nil => exact wsNorm_nil
  | cons a t ih =>
    cases t with
    | nil =>
      simp only [collapseWS]
      split
      · refine ⟨fun c hc _ => ?_, List.chain'_singleton _⟩
        simpa using hc
      · rename_i hns
        refine ⟨fun c hc hs => ?_, List.chain'_singleton _⟩
        simp only [List.mem_singleton] at hc
        subst hc
        simp [hs] at hns
    | cons b t' =>
      simp only [collapseWS]
      split
      · exact ih
      · rename_i hnot
        have hb' : pyIsSpace a = true → pyIsSpace b = false := by
          intro hsa
          cases hpb : pyIsSpace b
          · rfl
          · exact absurd (by simp [hsa, hpb]) hnot
        constructor
        · intro c hc hs
          rcases List.mem_cons.mp hc with h | h
          · by_cases hsa : pyIsSpace a = true
            · simp only [if_pos hsa] at h
              exact h
            · rw [if_neg hsa] at h
              subst h
              exact absurd hs hsa
          · exact ih.1 c h hs
        · rw [List.chain'_cons']
          refine ⟨?_, ih.2⟩
          intro y hy hcontra
          by_cases hsa : pyIsSpace a = true
          · have hbf : pyIsSpace b = false := hb' hsa
            obtain ⟨r, hr⟩ := collapseWS_head t' hbf
            rw [hr] at hy
            simp only [List.head?_cons, Option.mem_def, Option.some_inj] at hy
            subst hy
            exact absurd hcontra.2 (by simp [hbf])
          · rw [if_neg hsa] at hcontra
            exact absurd hcontra.1 hsa

theorem collapseWS_id {t : Str} (h : WSNorm t) : collapseWS t = t := by
  induction t with
  | nil => rfl
  | cons a t ih =>
    cases t with
    | nil =>
      simp only [collapseWS]
      split
      · rename_i hs
        rw [h.1 a (List.mem_cons_self _ _) hs]
      · rfl
    | cons b t' =>
      have hnot : ¬(pyIsSpace a = true ∧ pyIsSpace b = true) :=
        List.chain'_cons.mp h.2 |>.1
      simp only [collapseWS]
      rw [if_neg (by simpa [Bool.and_eq_true] using hnot)]
      have htail := ih (wsNorm_tail h)
      rw [htail]
      split
      · rename_i hs
        rw [h.1 a (List.mem_cons_self _ _) hs]
      · rfl

theorem spDotF_id {f : ℕ} : ∀ {t : Str}, '.' ∉ t → spDotF f t = t := by
  induction f with
  | zero =>
    intro t _
    cases t <;> rfl
  | succ f ih =>
    intro t hd
    cases t with
    | nil => rfl
    | cons c cs =>
      have hdc : '.' ∉ cs := fun h => hd (List.mem_cons_of_mem _ h)
      simp only [spDotF]
      split
      · split
        · rename_i heq
          exfalso
          have : '.' ∈ (c :: cs).dropWhile pyIsSpace := by
            rw [heq]; exact List.mem_cons_self _ _
          exact hd (mem_of_mem_dropWhile this)
        · rw [ih hdc]
      · rw [ih hdc]

theorem spDot_id {t : Str} (h : '.' ∉ t) : spDot t = t := spDotF_id h

theorem pyStrip_mem {t : Str} {c : Char} (h : c ∈ pyStrip t) : c ∈ t := by
  unfold pyStrip at h
  rw [List.mem_reverse] at h
  have h1 := mem_of_mem_dropWhile h
  rw [List.mem_reverse] at h1
  exact mem_of_mem_dropWhile h1

theorem pyStrip_id {t : Str} (h : TrimmedEnds t) : pyStrip t = t := by
  unfold pyStrip
  rw [dropWhile_eq_self_of_head (fun c hc => h.1 c hc)]
  rw [dropWhile_eq_self_of_head (fun c hc => h.2 c (by rwa [List.head?_reverse] at hc))]
  exact List.reverse_reverse t

theorem pyStrip_trimmed (t : Str) : TrimmedEnds (pyStrip t) := by
  constructor
  · intro c hc
    have hps : pyStrip t =
        ((t.dropWhile pyIsSpace).reverse.dropWhile pyIsSpace).reverse := rfl
    have hpre : ((t.dropWhile pyIsSpace).reverse.dropWhile pyIsSpace).reverse
        <+: t.dropWhile pyIsSpace := by
      have hsuf : (t.dropWhile pyIsSpace).reverse.dropWhile pyIsSpace <:+
          (t.dropWhile pyIsSpace).reverse := List.dropWhile_suffix pyIsSpace
      have := List.reverse_prefix.mpr hsuf
      simpa using this
    obtain ⟨s, hs⟩ := hpre
    rw [hps] at hc
    cases hur : ((t.dropWhile pyIsSpace).reverse.dropWhile pyIsSpace).reverse with
    | nil => rw [hur] at hc; simp at hc
    | cons c' r =>
      rw [hur] at hc hs
      simp only [List.head?_cons, Option.mem_def, Option.some_inj] at hc
      subst hc
      exact head_pred_of_dropWhile (List.cons_append c' r s ▸ hs).symm
  · intro c hc
    have hps : pyStrip t =
        ((t.dropWhile pyIsSpace).reverse.dropWhile pyIsSpace).reverse := rfl
    rw [hps, List.getLast?_reverse] at hc
    cases hu : (t.dropWhile pyIsSpace).reverse.dropWhile pyIsSpace with
    | nil => rw [hu] at hc; simp at hc
    | cons c' r =>
      rw [hu] at hc
      simp only [List.head?_cons, Option.mem_def, Option.some_inj] at hc
      subst hc
      exact head_pred_of_dropWhile hu

theorem chain'_of_suffix {R : α → α → Prop} {l l' : List α} (h : l' <:+ l)
    (hc : List.Chain' R l) : List.Chain' R l' := by
  obtain ⟨pre, hs⟩ := h
  subst hs
  exact (List.chain'_append.mp hc).2.1

theorem chain'_reverse_symm {R : α → α → Prop}
    (hsymm : ∀ a b, R a b → R b a) {l : List α} (h : List.Chain' R l) :
    List.Chain' R l.reverse :=
  List.chain'_reverse.mpr (List.Chain'.imp (fun a b hab => hsymm a b hab) h)

theorem wsNorm_pyStrip {t : Str} (h : WSNorm t) : WSNorm (pyStrip t) := by
  refine ⟨fun c hc hs => h.1 c (pyStrip_mem hc) hs, ?_⟩
  have hsymm : ∀ a b : Char, ¬(pyIsSpace a = true ∧ pyIsSpace b = true) →
      ¬(pyIsSpace b = true ∧ pyIsSpace a = true) := fun a b hab hcon =>
    hab ⟨hcon.2, hcon.1⟩
  have h1 : List.Chain' _ (t.dropWhile pyIsSpace) :=
    chain'_of_suffix (List.dropWhile_suffix pyIsSpace) h.2
  have h2 := chain'_reverse_symm hsymm h1
  have h3 : List.Chain' _ ((t.dropWhile pyIsSpace).reverse.dropWhile pyIsSpace) :=
    chain'_of_suffix (List.dropWhile_suffix pyIsSpace) h2
  exact chain'_reverse_symm hsymm h3

theorem removeExtraSpace_eq_collapseWS {t : Str} (h : '.' ∉ t) :
    removeExtraSpace t = collapseWS t := by
  unfold removeExtraSpace
  refine spDot_id (fun hm => ?_)
  rcases collapseWS_mem hm with h' | h'
  · exact h h'
  · exact absurd h' (by decide)

theorem replaceAllF_id {pat rep : Str} {a : Char} (ha : a ∈ pat) :
    ∀ {f : ℕ} {t : Str}, a ∉ t → replaceAllF pat rep f t = t := by
  intro f
  induction f with
  | zero => intro t _; cases t <;> rfl
  | succ f ih =>
    intro t hnt
    cases t with
    | nil => rfl
    | cons c cs =>
      simp only [replaceAllF]
      rw [if_neg]
      · rw [ih (fun h => hnt (List.mem_cons_of_mem _ h))]
      · rintro ⟨hp, -⟩
        exact hnt ((List.isPrefixOf_iff_prefix.mp hp).subset ha)

theorem replaceAll_id {pat rep : Str} {a : Char} (ha : a ∈ pat) {t : Str}
    (hnt : a ∉ t) : replaceAll pat rep t = t := replaceAllF_id ha hnt

theorem removeWords_id {ws : List Str}
    (hws : ∀ w ∈ ws, ∃ a, a ∈ w ∧ isPunct a = true) {t : Str}
    (ht : ∀ c ∈ t, isPunct c = false) : removeWords ws t = t := by
  unfold removeWords
  induction ws with
  | nil => rfl
  | cons w ws ih =>
    simp only [List.foldl_cons]
    obtain ⟨a, haw, hap⟩ := hws w (List.mem_cons_self _ _)
    rw [replaceAll_id haw (fun hat => by rw [ht a hat] at hap; cases hap)]
    exact ih (fun w' hw' => hws w' (List.mem_cons_of_mem _ hw'))

/-! ### Per-stage membership and identity lemmas -/

theorem mem_removeDiacritics {t : Str} {c : Char} (h : c ∈ removeDiacritics t) :
    c ∈ t ∧ isDiacritic c = false := by
  have := List.mem_filter.mp h
  exact ⟨this.1, by simpa using this.2⟩

theorem removeDiacritics_id {t : Str} (h : ∀ c ∈ t, isDiacritic c = false) :
    removeDiacritics t = t :=
  List.filter_eq_self.mpr (fun c hc => by simp [h c hc])

theorem mem_removePunctSpace {t : Str} {c : Char} (h : c ∈ removePunctSpace t) :
    isPunct c = false ∧ (c ∈ t ∨ c = ' ') := by
  obtain ⟨c', hc', he⟩ := List.mem_map.mp h
  by_cases hp : isPunct c' = true
  · rw [if_pos hp] at he
    exact ⟨by rw [← he]; decide, Or.inr he.symm⟩
  · rw [if_neg hp] at he
    subst he
    exact ⟨by simpa using hp, Or.inl hc'⟩

theorem removePunctSpace_id {t : Str} (h : ∀ c ∈ t, isPunct c = false) :
    removePunctSpace t = t :=
  map_eq_self_of (fun c hc => by rw [if_neg (by simp [h c hc])])

theorem mem_removePunctDrop {t : Str} {c : Char} (h : c ∈ removePunctDrop t) :
    isPunct c = false ∧ (c ∈ t ∨ c = ' ') := by
  have := List.mem_filter.mp h
  exact ⟨by simpa using this.2, Or.inl this.1⟩

theorem removePunctDrop_id {t : Str} (h : ∀ c ∈ t, isPunct c = false) :
    removePunctDrop t = t :=
  List.filter_eq_self.mpr (fun c hc => by simp [h c hc])

theorem mem_removeNonAlphanumeric {t : Str} {c : Char}
    (h : c ∈ removeNonAlphanumeric t) :
    keptChar c = true ∧ ∃ c', c' ∈ t ∧ pyLower c' = c := by
  have hm := List.mem_filter.mp h
  obtain ⟨c', hc', he⟩ := List.mem_map.mp hm.1
  exact ⟨hm.2, c', hc', he⟩

theorem removeNonAlphanumeric_id {t : Str}
    (h : ∀ c ∈ t, keptChar c = true ∧ isUpperAZ c = false) :
    removeNonAlphanumeric t = t := by
  unfold removeNonAlphanumeric
  rw [map_eq_self_of (fun c hc => pyLower_eq_self (h c hc).2)]
  exact List.filter_eq_self.mpr (fun c hc => (h c hc).1)

theorem mem_eastToWest {t : Str} {c : Char} (h : c ∈ eastToWest t) :
    ∃ c', c' ∈ t ∧ eastToWestChar c' = c := List.mem_map.mp h

theorem eastToWest_id {t : Str} (h : ∀ c ∈ t, eastToWestChar c = c) :
    eastToWest t = t := map_eq_self_of h

/-! ### Idempotence of the gulf / iraqi / levant cleaning pipelines -/

/-- Characters that survive one pass of a gulf-style cleaning pipeline. -/
def GoodG (c : Char) : Prop :=
  keptChar c = true ∧ isDiacritic c = false ∧ isPunct c = false ∧
  isUpperAZ c = false

/-- Invariant satisfied by every output of a gulf-style cleaning pipeline. -/
def GulfInv (t : Str) : Prop :=
  (∀ c ∈ t, GoodG c) ∧ WSNorm t ∧ TrimmedEnds t

theorem pyLower_cases2 (c : Char) :
    (pyLower c = c ∧ isUpperAZ c = false) ∨
    (97 ≤ (pyLower c).toNat ∧ (pyLower c).toNat ≤ 122) := by
  unfold pyLower
  split
  · right
    rename_i h
    unfold isUpperAZ at h
    simp only [Bool.and_eq_true, decide_eq_true_eq] at h
    rw [toNat_ofNat_valid (by omega)]
    omega
  · rename_i h
    exact Or.inl ⟨rfl, by simpa using h⟩

theorem cleanCore_inv (ws : List Str) (X : Str → Str)
    (hXmem : ∀ t c, c ∈ X t → isPunct c = false ∧ (c ∈ t ∨ c = ' '))
    (s : Str) :
    GulfInv (pyStrip (removeExtraSpace (removeNonAlphanumeric (X
      (removeDiacritics (removeWords ws s)))))) := by
  have h4 : ∀ c ∈ removeNonAlphanumeric (X (removeDiacritics (removeWords ws s))),
      GoodG c := by
    intro c hc
    obtain ⟨hkept, c', hc', hlow⟩ := mem_removeNonAlphanumeric hc
    have hpc' : isPunct c' = false := (hXmem _ c' hc').1
    have hdc' : isDiacritic c' = false := by
      rcases (hXmem _ c' hc').2 with h | h
      · exact (mem_removeDiacritics h).2
      · subst h; decide
    subst hlow
    rcases pyLower_cases2 c' with ⟨he, hu⟩ | ⟨h1, h2⟩
    · rw [he] at hkept ⊢
      exact ⟨hkept, hdc', hpc', hu⟩
    · exact ⟨hkept, isDiacritic_lower_false h1 h2, isPunct_lower_false h1 h2,
        isUpperAZ_lower_false h1⟩
  have hdot : '.' ∉ removeNonAlphanumeric (X (removeDiacritics (removeWords ws s))) :=
    fun hm => absurd (h4 '.' hm).2.2.1 (by decide)
  rw [removeExtraSpace_eq_collapseWS hdot]
  have h5mem : ∀ c ∈ collapseWS (removeNonAlphanumeric (X (removeDiacritics
      (removeWords ws s)))), GoodG c := by
    intro c hc
    rcases collapseWS_mem hc with h | h
    · exact h4 c h
    · subst h; exact ⟨by decide, by decide, by decide, by decide⟩
  exact ⟨fun c hc => h5mem c (pyStrip_mem hc),
    wsNorm_pyStrip (collapseWS_wsNorm _), pyStrip_trimmed _⟩

theorem cleanCore_id (ws : List Str)
    (hws : ∀ w ∈ ws, ∃ a, a ∈ w ∧ isPunct a = true)
    (X : Str → Str) (hXid : ∀ t, (∀ c ∈ t, isPunct c = false) → X t = t)
    {t : Str} (h : GulfInv t) :
    pyStrip (removeExtraSpace (removeNonAlphanumeric (X
      (removeDiacritics (removeWords ws t))))) = t := by
  have hp : ∀ c ∈ t, isPunct c = false := fun c hc => (h.1 c hc).2.2.1
  rw [removeWords_id hws hp,
      removeDiacritics_id (fun c hc => (h.1 c hc).2.1),
      hXid t hp,
      removeNonAlphanumeric_id (fun c hc => ⟨(h.1 c hc).1, (h.1 c hc).2.2.2⟩),
      removeExtraSpace_eq_collapseWS
        (fun hm => absurd (hp '.' hm) (by decide)),
      collapseWS_id h.2.1, pyStrip_id h.2.2]

theorem gulfWords_punct : ∀ w ∈ gulfWords, ∃ a, a ∈ w ∧ isPunct a = true := by
  decide

theorem levWords_punct : ∀ w ∈ levWords, ∃ a, a ∈ w ∧ isPunct a = true := by
  decide

theorem gulfCleaning_idem (s : Str) : gulfCleaning (gulfCleaning s) = gulfCleaning s :=
  cleanCore_id gulfWords gulfWords_punct removePunctSpace
    (fun _ h => removePunctSpace_id h)
    (cleanCore_inv gulfWords removePunctSpace
      (fun _ _ hc => mem_removePunctSpace hc) s)

theorem iraqiCleaning_idem (s : Str) :
    iraqiCleaning (iraqiCleaning s) = iraqiCleaning s :=
  cleanCore_id iraqiWords gulfWords_punct removePunctDrop
    (fun _ h => removePunctDrop_id h)
    (cleanCore_inv iraqiWords removePunctDrop
      (fun _ _ hc => mem_removePunctDrop hc) s)

theorem levantCleaning_idem (s : Str) :
    levantCleaning (levantCleaning s) = levantCleaning s :=
  cleanCore_id levWords levWords_punct removePunctSpace
    (fun _ h => removePunctSpace_id h)
    (cleanCore_inv levWords removePunctSpace
      (fun _ _ hc => mem_removePunctSpace hc) s)

/-! ### joinSp and splitWS lemmas -/

theorem joinSp_mem {ws : List Str} {c : Char} (h : c ∈ joinSp ws) :
    (∃ w ∈ ws, c ∈ w) ∨ c = ' ' := by
  induction ws with
  | nil => simp [joinSp] at h
  | cons w rest ih =>
    cases rest with
    | nil =>
      exact Or.inl ⟨w, List.mem_cons_self _ _, h⟩
    | cons w' rest' =>
      simp only [joinSp] at h
      rcases List.mem_append.mp h with h | h
      · exact Or.inl ⟨w, List.mem_cons_self _ _, h⟩
      · rcases List.mem_cons.mp h with h | h
        · exact Or.inr h
        · rcases ih h with ⟨w'', hw'', hc⟩ | h
          · exact Or.inl ⟨w'', List.mem_cons_of_mem _ hw'', hc⟩
          · exact Or.inr h

theorem joinSp_head {w : Str} {rest : List Str} :
    (joinSp (w :: rest)).head? = if rest.isEmpty then w.head? else (w ++ [' ']).head? := by
  cases rest with
  | nil => simp [joinSp]
  | cons w' rest' =>
    cases w with
    | nil => simp [joinSp]
    | cons c w'' => simp [joinSp]

theorem joinSp_head_of_ne {w : Str} {rest : List Str} (hw : w ≠ []) :
    ∃ c cs, joinSp (w :: rest) = c :: cs ∧ w.head? = some c := by
  cases w with
  | nil => exact absurd rfl hw
  | cons c w'' =>
    cases rest with
    | nil => exact ⟨c, w'', rfl, rfl⟩
    | cons w' rest' =>
      exact ⟨c, w'' ++ ' ' :: joinSp (w' :: rest'), rfl, rfl⟩

theorem joinSp_wsNorm {ws : List Str}
    (h : ∀ w ∈ ws, w ≠ [] ∧ ∀ c ∈ w, pyIsSpace c = false) :
    WSNorm (joinSp ws) := by
  induction ws with
  | nil => exact wsNorm_nil
  | cons w rest ih =>
    cases rest with
    | nil =>
      refine ⟨fun c hc hs => ?_, ?_⟩
      · rw [(h w (List.mem_cons_self _ _)).2 c hc] at hs
        cases hs
      · exact chain'_of_all (fun a ha _ _ hcon =>
          by rw [(h w (List.mem_cons_self _ _)).2 a ha] at hcon; exact absurd hcon.1 (by simp))
    | cons w' rest' =>
      have hrest := ih (fun x hx => h x (List.mem_cons_of_mem _ hx))
      have hw := h w (List.mem_cons_self _ _)
      refine ⟨fun c hc hs => ?_, ?_⟩
      · rcases joinSp_mem hc with ⟨w'', hw'', hcw⟩ | hsp
        · rw [(h w'' hw'').2 c hcw] at hs; cases hs
        · exact hsp
      · show List.Chain' _ (w ++ ' ' :: joinSp (w' :: rest'))
        rw [List.chain'_append]
        refine ⟨chain'_of_all (fun a ha _ _ hcon =>
            by rw [hw.2 a ha] at hcon; exact absurd hcon.1 (by simp)), ?_, ?_⟩
        · rw [List.chain'_cons']
          refine ⟨?_, hrest.2⟩
          intro y hy hcon
          obtain ⟨c0, cs0, hj, hh⟩ :=
            @joinSp_head_of_ne w' rest' (h w' (by simp)).1
          rw [hj] at hy
          simp only [List.head?_cons, Option.mem_def, Option.some_inj] at hy
          subst hy
          have : c0 ∈ w' := by
            cases w' with
            | nil => simp at hh
            | cons a w9 =>
              simp only [List.head?_cons, Option.some_inj] at hh
              exact hh ▸ List.mem_cons_self _ _
          rw [(h w' (by simp)).2 c0 this] at hcon
          exact absurd hcon.2 (by simp)
        · intro x hx y hy hcon
          rw [List.head?_cons, Option.mem_def, Option.some_inj] at hy
          subst hy
          have hxw : x ∈ w := by
            cases w with
            | nil => simp at hx
            | cons a w9 => exact List.mem_of_mem_getLast? hx
          rw [hw.2 x hxw] at hcon
          exact absurd hcon.1 (by simp)

theorem takeWhile_eq_self_of {p : α → Bool} {l : List α}
    (h : ∀ a ∈ l, p a = true) : l.takeWhile p = l := by
  induction l with
  | nil => rfl
  | cons a l ih =>
    rw [List.takeWhile_cons, if_pos (h a (List.mem_cons_self _ _))]
    rw [ih (fun b hb => h b (List.mem_cons_of_mem _ hb))]

theorem dropWhile_eq_nil_of {p : α → Bool} {l : List α}
    (h : ∀ a ∈ l, p a = true) : l.dropWhile p = [] := by
  induction l with
  | nil => rfl
  | cons a l ih =>
    rw [List.dropWhile_cons, if_pos (h a (List.mem_cons_self _ _))]
    exact ih (fun b hb => h b (List.mem_cons_of_mem _ hb))

theorem splitWSF_nil : ∀ f, splitWSF f [] = [] := by
  intro f
  cases f <;> rfl

theorem splitWSF_cons_space {a : Char} (ha : pyIsSpace a = true) (f : ℕ)
    (r : Str) : splitWSF (f + 1) (a :: r) = splitWSF (f + 1) r := by
  simp only [splitWSF]
  rw [List.dropWhile_cons, if_pos ha]

theorem splitWSF_words : ∀ {f : ℕ} {t : Str}, t.length ≤ f →
    ∀ w ∈ splitWSF f t, w ≠ [] ∧ ∀ c ∈ w, pyIsSpace c = false ∧ c ∈ t := by
  intro f
  induction f with
  | zero => intro t _ w hw; simp [splitWSF] at hw
  | succ f ih =>
    intro t ht w hw
    simp only [splitWSF] at hw
    split at hw
    · simp at hw
    · rename_i c cs hdw
      have hmemt : ∀ x, x ∈ c :: cs → x ∈ t := by
        intro x hx
        rw [← hdw] at hx
        exact mem_of_mem_dropWhile hx
      rcases List.mem_cons.mp hw with he | hrec
      · subst he
        refine ⟨by simp, fun x hx => ?_⟩
        rcases List.mem_cons.mp hx with he | hx
        · subst he
          exact ⟨head_pred_of_dropWhile hdw, hmemt _ (List.mem_cons_self _ _)⟩
        · have h1 := pred_of_mem_takeWhile hx
          have h2 := mem_of_mem_takeWhile hx
          exact ⟨by simpa using h1, hmemt _ (List.mem_cons_of_mem _ h2)⟩
      · have hlen : (cs.dropWhile (fun d => !pyIsSpace d)).length ≤ f := by
          have h1 := length_dropWhile_le (fun d => !pyIsSpace d) cs
          have h2 : (c :: cs).length ≤ t.length := by
            rw [← hdw]; exact length_dropWhile_le _ _
          simp only [List.length_cons] at h2
          omega
        obtain ⟨hne, hall⟩ := ih hlen w hrec
        refine ⟨hne, fun x hx => ?_⟩
        obtain ⟨hws, hmem⟩ := hall x hx
        exact ⟨hws, hmemt _ (List.mem_cons_of_mem _ (mem_of_mem_dropWhile hmem))⟩

theorem joinSp_eq_nil {ws : List Str} (h : ∀ w ∈ ws, w ≠ [])
    (he : joinSp ws = []) : ws = [] := by
  cases ws with
  | nil => rfl
  | cons w rest =>
    cases rest with
    | nil => exact absurd he (h w (List.mem_cons_self _ _))
    | cons w' rest' =>
      simp only [joinSp, List.append_eq_nil] at he
      exact absurd he.1 (h w (List.mem_cons_self _ _))

theorem splitWSF_cons_nospace {c : Char} (hc : pyIsSpace c = false) (f : ℕ)
    (cs : Str) :
    splitWSF (f + 1) (c :: cs) =
      (c :: cs.takeWhile (fun d => !pyIsSpace d))
        :: splitWSF f (cs.dropWhile (fun d => !pyIsSpace d)) := by
  simp only [splitWSF, List.dropWhile_cons, hc]
  rfl

theorem splitWSF_joinSp : ∀ {f : ℕ} {ws : List Str},
    (∀ w ∈ ws, w ≠ [] ∧ ∀ c ∈ w, pyIsSpace c = false) →
    (joinSp ws).length ≤ f → splitWSF f (joinSp ws) = ws := by
  intro f
  induction f with
  | zero =>
    intro ws h hl
    have : joinSp ws = [] := List.length_eq_zero.mp (Nat.le_zero.mp hl)
    rw [this, splitWSF_nil]
    exact (joinSp_eq_nil (fun w hw => (h w hw).1) this).symm
  | succ f ih =>
    intro ws h hl
    cases ws with
    | nil => exact splitWSF_nil _
    | cons w rest =>
      obtain ⟨hne, hwsf⟩ := h w (List.mem_cons_self _ _)
      cases hw : w with
      | nil => exact absurd hw hne
      | cons c w'' =>
        subst hw
        have hc : pyIsSpace c = false := hwsf c (List.mem_cons_self _ _)
        have hw'' : ∀ x ∈ w'', pyIsSpace x = false :=
          fun x hx => hwsf x (List.mem_cons_of_mem _ hx)
        cases rest with
        | nil =>
          show splitWSF (f + 1) (c :: w'') = [c :: w'']
          rw [splitWSF_cons_nospace hc]
          rw [takeWhile_eq_self_of (fun a ha => by simp [hw'' a ha])]
          rw [dropWhile_eq_nil_of (fun a ha => by simp [hw'' a ha])]
          rw [splitWSF_nil]
        | cons w' rest' =>
          show splitWSF (f + 1) ((c :: w'') ++ ' ' :: joinSp (w' :: rest')) = _
          rw [List.cons_append, splitWSF_cons_nospace hc]
          rw [takeWhile_append_not (fun a ha => by simp [hw'' a ha]) (by decide)]
          rw [dropWhile_append_not (fun a ha => by simp [hw'' a ha]) (by decide)]
          have hlen : 1 + (joinSp (w' :: rest')).length ≤ f := by
            have h0 : joinSp ((c :: w'') :: w' :: rest') =
                (c :: w'') ++ ' ' :: joinSp (w' :: rest') := rfl
            rw [h0] at hl
            simp only [List.length_append, List.length_cons] at hl
            omega
        -- f must be at least 1
          obtain ⟨f1, rfl⟩ : ∃ f1, f = f1 + 1 := by
            cases f with
            | zero => omega
            | succ f1 => exact ⟨f1, rfl⟩
          rw [splitWSF_cons_space (by decide) f1 (joinSp (w' :: rest'))]
          rw [ih (fun x hx => h x (List.mem_cons_of_mem _ hx)) (by omega)]

theorem splitWS_words {t : Str} :
    ∀ w ∈ splitWS t, w ≠ [] ∧ ∀ c ∈ w, pyIsSpace c = false ∧ c ∈ t :=
  splitWSF_words (Nat.le_refl _)

theorem splitWS_joinSp {ws : List Str}
    (h : ∀ w ∈ ws, w ≠ [] ∧ ∀ c ∈ w, pyIsSpace c = false) :
    splitWS (joinSp ws) = ws :=
  splitWSF_joinSp h (Nat.le_refl _)

/-! ### Idempotence of the qasr cleaning pipeline -/

/-- The four punctuation characters that lie inside the kept Arabic block. -/
def fourArabicPuncts : List Char := ['،', '؛', '؟', 'ـ']

theorem kept_punct_four : ∀ p ∈ puncts, keptChar p = false ∨ p ∈ fourArabicPuncts := by
  decide

theorem eastImage_facts : ∀ p ∈ eastMap, isDiacritic p.2 = false ∧
    p.2 ∉ fourArabicPuncts ∧ eastToWestChar p.2 = p.2 := by
  decide

theorem fourArabicPuncts_punct : ∀ p ∈ fourArabicPuncts, isPunct p = true := by
  decide

/-- Characters that survive one pass of the qasr cleaning pipeline. -/
def GoodQ (c : Char) : Prop :=
  keptChar c = true ∧ isDiacritic c = false ∧ isPunct c = false ∧
  isUpperAZ c = false ∧ eastToWestChar c = c

/-- Words that survive `remove_single_char_word`. -/
def GoodWord (w : Str) : Prop :=
  w ≠ [] ∧ (∀ c ∈ w, pyIsSpace c = false) ∧ keepWord w = true

/-- Invariant satisfied by every output of the qasr cleaning pipeline. -/
def QasrInv (t : Str) : Prop :=
  ∃ ws', (∀ w ∈ ws', GoodWord w ∧ ∀ c ∈ w, GoodQ c) ∧ t = joinSp ws'

theorem goodQ_space : GoodQ ' ' := by
  refine ⟨by decide, by decide, by decide, by decide, by decide⟩

theorem notPunct_of_kept_notFour {c : Char} (hk : keptChar c = true)
    (hf : c ∉ fourArabicPuncts) : isPunct c = false := by
  cases hp : isPunct c
  · rfl
  · have hmem : c ∈ puncts := by simpa [isPunct] using hp
    rcases kept_punct_four c hmem with h | h
    · rw [hk] at h; cases h
    · exact absurd h hf

theorem fourArabicPuncts_not_lower : ∀ p ∈ fourArabicPuncts,
    p.toNat < 97 ∨ 122 < p.toNat := by decide

theorem qasr_chars_goodQ (s : Str) :
    ∀ c ∈ removeNonAlphanumeric (removeDiacritics (eastToWest
      (removePunctSpace s))), GoodQ c := by
  intro c hc
  obtain ⟨hkept, c1, hc1, hlow⟩ := mem_removeNonAlphanumeric hc
  obtain ⟨hc1e, hd1⟩ := mem_removeDiacritics hc1
  obtain ⟨c2, hc2, he2⟩ := mem_eastToWest hc1e
  have hp2 : isPunct c2 = false := (mem_removePunctSpace hc2).1
  -- facts about c1 before lower-casing
  have hfour : c1 ∉ fourArabicPuncts ∧ eastToWestChar c1 = c1 := by
    unfold eastToWestChar at he2
    cases hf : eastMap.find? (fun p => p.1 = c2) with
    | some p =>
      rw [hf] at he2
      have hpm : p ∈ eastMap := List.mem_of_find?_eq_some hf
      obtain ⟨-, hf2, he⟩ := eastImage_facts p hpm
      exact ⟨he2 ▸ hf2, he2 ▸ he⟩
    | none =>
      rw [hf] at he2
      subst he2
      have hnf : c2 ∉ fourArabicPuncts := fun hm =>
        by rw [fourArabicPuncts_punct _ hm] at hp2; cases hp2
      refine ⟨hnf, eastToWestChar_eq_self_of_notin (fun p hp hpe => ?_)⟩
      have := List.find?_eq_none.mp hf p hp
      simp only [decide_eq_true_eq] at this
      exact this hpe
  subst hlow
  rcases pyLower_cases2 c1 with ⟨he, hu⟩ | ⟨h1, h2⟩
  · rw [he] at hkept ⊢
    exact ⟨hkept, hd1, notPunct_of_kept_notFour hkept hfour.1, hu, hfour.2⟩
  · exact ⟨hkept, isDiacritic_lower_false h1 h2, isPunct_lower_false h1 h2,
      isUpperAZ_lower_false h1, eastToWestChar_lower h1 h2⟩

theorem removeExtraSpace_joinSp {ws : List Str}
    (h : ∀ w ∈ ws, GoodWord w ∧ ∀ c ∈ w, GoodQ c) :
    removeExtraSpace (joinSp ws) = joinSp ws := by
  have hdot : '.' ∉ joinSp ws := by
    intro hm
    rcases joinSp_mem hm with ⟨w, hw, hc⟩ | hsp
    · exact absurd ((h w hw).2 '.' hc).2.2.1 (by decide)
    · cases hsp
  rw [removeExtraSpace_eq_collapseWS hdot]
  exact collapseWS_id (joinSp_wsNorm (fun w hw => ⟨(h w hw).1.1, (h w hw).1.2.1⟩))

theorem qasrCleaning_inv (s : Str) : QasrInv (qasrCleaning s) := by
  have hgood := qasr_chars_goodQ s
  set u := removeNonAlphanumeric (removeDiacritics (eastToWest
    (removePunctSpace s))) with hu
  have hwords : ∀ w ∈ (splitWS u).filter keepWord,
      GoodWord w ∧ ∀ c ∈ w, GoodQ c := by
    intro w hw
    have hmem := List.mem_filter.mp hw
    obtain ⟨hne, hall⟩ := splitWS_words w hmem.1
    exact ⟨⟨hne, fun c hc => (hall c hc).1, hmem.2⟩,
      fun c hc => hgood c (hall c hc).2⟩
  refine ⟨(splitWS u).filter keepWord, hwords, ?_⟩
  show removeExtraSpace (removeSingleCharWord u) = _
  unfold removeSingleCharWord
  exact removeExtraSpace_joinSp hwords

theorem qasrCleaning_id {t : Str} (h : QasrInv t) : qasrCleaning t = t := by
  obtain ⟨ws', hws, rfl⟩ := h
  have hall : ∀ c ∈ joinSp ws', GoodQ c := by
    intro c hc
    rcases joinSp_mem hc with ⟨w, hw, hcw⟩ | hsp
    · exact (hws w hw).2 c hcw
    · exact hsp ▸ goodQ_space
  show removeExtraSpace (removeSingleCharWord (removeNonAlphanumeric
    (removeDiacritics (eastToWest (removePunctSpace (joinSp ws')))))) = _
  rw [removePunctSpace_id (fun c hc => (hall c hc).2.2.1),
      eastToWest_id (fun c hc => (hall c hc).2.2.2.2),
      removeDiacritics_id (fun c hc => (hall c hc).2.1),
      removeNonAlphanumeric_id
        (fun c hc => ⟨(hall c hc).1, (hall c hc).2.2.2.1⟩)]
  unfold removeSingleCharWord
  rw [splitWS_joinSp (fun w hw => ⟨(hws w hw).1.1, (hws w hw).1.2.1⟩)]
  rw [List.filter_eq_self.mpr (fun w hw => (hws w hw).1.2.2)]
  exact removeExtraSpace_joinSp hws

theorem qasrCleaning_idem (s : Str) :
    qasrCleaning (qasrCleaning s) = qasrCleaning s :=
  qasrCleaning_id (qasrCleaning_inv s)

/-- C1: the text-normalization pipeline is idempotent — for every string
`s`, cleaning (cleaning s) = cleaning s, for the Gulf, Iraqi and Levantine
`cleaning` pipelines and for the QASR variant (with digit normalization and
single-character-word removal). -/
theorem c1_cleaning_idempotent :
    (∀ s : Str, gulfCleaning (gulfCleaning s) = gulfCleaning s) ∧
    (∀ s : Str, iraqiCleaning (iraqiCleaning s) = iraqiCleaning s) ∧
    (∀ s : Str, levantCleaning (levantCleaning s) = levantCleaning s) ∧
    (∀ s : Str, qasrCleaning (qasrCleaning s) = qasrCleaning s) :=
  ⟨gulfCleaning_idem, iraqiCleaning_idem, levantCleaning_idem, qasrCleaning_idem⟩

/-! ### Data model: PyErr, segments, tokenizing helpers -/

/-- Python exceptions that the recipe code can raise while parsing. -/
inductive PyErr
  | valueError
  | typeError
  | indexError
  | invalidOperation
  | assertionError
deriving DecidableEq

deriving instance DecidableEq for Except

/-- The `speaker` field of a lhotse SupervisionSegment: the callhome
recipes store a string, the qasr recipe stores an integer. -/
inductive SpeakerId
  | str (s : Str)
  | num (n : ℤ)
deriving DecidableEq

/-- lhotse `SupervisionSegment`, restricted to the fields the recipes set.
`start` and `duration` carry the exact rational value of the float stored
by the Python code; see the duration model notes on the parsers. -/
structure SupervisionSegment where
  id : Str
  recording_id : Str
  start : ℚ
  duration : ℚ
  channel : ℤ
  text : Str
  speaker : SpeakerId
  language : Option Str := none
deriving DecidableEq

/-- Python `str.split(sep)` for a one-character separator: keeps empty
fields, `"".split(sep) == [""]`. -/
def splitOnChar (sep : Char) : Str → List Str
  | [] => [[]]
  | c :: cs =>
    match splitOnChar sep cs with
    | [] => [[c]]
    | w :: rest =>
      if c = sep then [] :: w :: rest else (c :: w) :: rest

def digitsVal (t : Str) : ℕ := t.foldl (fun acc c => acc * 10 + (c.toNat - 48)) 0

def allDigits (t : Str) : Bool := !t.isEmpty && t.all isAsciiDigit

/-- Python `decimal.Decimal(str)` restricted to plain decimals: sign,
integer digits, optional fraction.  The full numeric-string grammar the
constructor accepts — exponent forms, `Infinity`, (signalling) `NaN`,
underscores and surrounding whitespace — is modelled by `parseDecimal`
further below, which the tab pipeline models use to follow the NaN and
infinity values through the loops; this restricted parser serves the
per-line lemmas whose hypotheses already fix a finite parse.
Unparseable strings raise `InvalidOperation`. -/
def pyDecimal? (t : Str) : Option ℚ :=
  let core : Str → Option ℚ := fun body =>
    match splitOnChar '.' body with
    | [ip] => if allDigits ip then some (digitsVal ip) else none
    | [ip, fp] =>
      if (ip ≠ [] ∨ fp ≠ []) ∧ ip.all isAsciiDigit ∧ fp.all isAsciiDigit then
        some ((digitsVal ip : ℚ) + (digitsVal fp : ℚ) / 10 ^ fp.length)
      else none
    | _ => none
  match t with
  | '-' :: r => (core r).map (fun q => -q)
  | '+' :: r => core r
  | _ => core t

/-- Python `int(str)`: sign plus decimal digits.  Underscore digit grouping
and surrounding whitespace are not modelled (the tokens fed to `int` here
are plain digit runs). -/
def pyInt? (t : Str) : Option ℤ :=
  match t with
  | '-' :: r => if allDigits r then some (-(digitsVal r : ℤ)) else none
  | '+' :: r => if allDigits r then some (digitsVal r) else none
  | _ => if allDigits t then some (digitsVal t) else none

/-- Python `ord`: defined only on one-character strings, `TypeError`
otherwise. -/
def pyOrd (s : Str) : Except PyErr ℕ :=
  match s with
  | [c] => .ok c.toNat
  | _ => .error .typeError

/-- Decimal representation of a natural number (`str(n)` for `n ≥ 0`),
via fuel-guided recursion (`fuel ≥ n` suffices). -/
def natToDigitsF : ℕ → ℕ → Str
  | 0, n => [Char.ofNat (48 + n % 10)]
  | f + 1, n =>
    if n < 10 then [Char.ofNat (48 + n)]
    else natToDigitsF f (n / 10) ++ [Char.ofNat (48 + n % 10)]

def natRepr (n : ℕ) : Str := natToDigitsF n n

/-- `str(n)` for a Python int. -/
def intRepr (n : ℤ) : Str :=
  if n < 0 then '-' :: natRepr n.natAbs else natRepr n.natAbs

/-- The f-string pad `{idx:0>5d}`: left-pad the decimal digits with `0`
to width 5. -/
def pad5 (n : ℕ) : Str := List.replicate (5 - (natRepr n).length) '0' ++ natRepr n

/-- The f-string pad `{spk:0>2s}`: left-pad a string with `0` to width 2. -/
def pads2 (w : Str) : Str := List.replicate (2 - w.length) '0' ++ w

/-- Python `str.zfill(7)` on the digit strings produced by
`make_supervisions` (sign handling is irrelevant there: the centisecond
values are non-negative). -/
def zfill7 (t : Str) : Str := List.replicate (7 - t.length) '0' ++ t

/-- The maximal all-digit suffix of a string. -/
def maxDigitSuffix (t : Str) : Str := (t.reverse.takeWhile isAsciiDigit).reverse

/-! ### The callhome_gulf line parser -/

inductive GulfSplit
  | devtest
  | train2c
  | train1c
deriving DecidableEq

/-- Channel assignment of `prepare_callhome_gulf` (lines 82-86): the
`train1c` split fixes channel 0, the two-channel splits compute
`ord(spk) - ord("A")` — which raises `TypeError` unless the speaker tag is
exactly one character. -/
def gulfChannel (split : GulfSplit) (spk : Str) : Except PyErr ℤ :=
  if split = GulfSplit.train1c then .ok 0
  else (pyOrd spk).map (fun n => (n : ℤ) - 65)

/-- One iteration of the transcript-line loop of `prepare_callhome_gulf`
(lines 64-101).  Returns `ok none` when the line is skipped (`continue`),
`ok (some seg)` when a segment is appended (and the caller increments
`idx`), and `error e` when the Python code would raise.  `float` applied
to a `Decimal` difference and to the start string is modelled as the exact
rational value: the recipes only compare the resulting duration with 0 and
store the values, and binary rounding preserves the sign of every value
representable outside the subnormal range, which the timestamp grammar
cannot leave. -/
def parseGulfLine (split : GulfSplit) (textCleaning : Bool) (stem : Str)
    (idx : ℕ) (rawLine : Str) : Except PyErr (Option SupervisionSegment) :=
  let line := pyStrip rawLine
  if line = [] ∨ (splitOnChar '\t' line).length < 4 then .ok none
  else
    match splitOnChar '\t' line with
    | [timeF, spkF, textF, _textBW] =>
      let time := timeF.filter (fun c => !(c = '[' || c = ']'))
      match splitWS time with
      | [startS, endS] =>
        let spk := (spkF.filter (fun c => !(c = ':'))).filter
          (fun c => !isAsciiDigit c)
        match pyDecimal? startS, pyDecimal? endS with
        | some ds, some de =>
          let text := if textCleaning then gulfCleaning textF else textF
          if de - ds ≤ 0 ∨ text = [] then .ok none
          else
            match gulfChannel split spk with
            | .error e => .error e
            | .ok ch =>
              .ok (some
                { id := stem ++ '_' :: (pads2 spk ++ '_' :: pad5 idx)
                  recording_id := stem
                  start := ds
                  duration := de - ds
                  channel := ch
                  text := text
                  speaker := .str (stem ++ '_' :: pads2 spk) })
        | _, _ => .error .invalidOperation
      | _ => .error .valueError
    | _ => .error .valueError

/-- The per-transcript-file loop of `prepare_callhome_gulf`: `idx` starts
at 0 and increments only when a segment is appended; any exception aborts
the whole preparation call. -/
def parseGulfFile (split : GulfSplit) (textCleaning : Bool) (stem : Str) :
    ℕ → List Str → Except PyErr (List SupervisionSegment)
  | _, [] => .ok []
  | idx, l :: ls =>
    match parseGulfLine split textCleaning stem idx l with
    | .error e => .error e
    | .ok none => parseGulfFile split textCleaning stem idx ls
    | .ok (some seg) =>
      match parseGulfFile split textCleaning stem (idx + 1) ls with
      | .error e => .error e
      | .ok segs => .ok (seg :: segs)

/-- Inversion: every appended gulf segment comes from a well-formed line,
has positive duration and non-empty text, and carries the deterministic id
and channel. -/
theorem parseGulfLine_inv {split : GulfSplit} {tc : Bool} {stem : Str}
    {idx : ℕ} {rawLine : Str} {seg : SupervisionSegment}
    (h : parseGulfLine split tc stem idx rawLine = .ok (some seg)) :
    ∃ timeF spkF textF textBW startS endS spk ds de text,
      splitOnChar '\t' (pyStrip rawLine) = [timeF, spkF, textF, textBW] ∧
      splitWS (timeF.filter (fun c => !(c = '[' || c = ']'))) = [startS, endS] ∧
      spk = (spkF.filter (fun c => !(c = ':'))).filter
        (fun c => !isAsciiDigit c) ∧
      pyDecimal? startS = some ds ∧ pyDecimal? endS = some de ∧
      text = (if tc then gulfCleaning textF else textF) ∧
      0 < de - ds ∧ text ≠ [] ∧
      gulfChannel split spk = .ok seg.channel ∧
      seg = { id := stem ++ '_' :: (pads2 spk ++ '_' :: pad5 idx),
              recording_id := stem, start := ds, duration := de - ds,
              channel := seg.channel, text := text,
              speaker := .str (stem ++ '_' :: pads2 spk) } := by
  simp only [parseGulfLine] at h
  split at h
  · exact absurd h (by simp)
  · split at h
    · rename_i hfields
      split at h
      · rename_i htime
        split at h
        · rename_i ds0 de0 hds hde
          split at h
          all_goals (
            split at h
            · exact absurd h (by simp)
            · rename_i hnot
              split at h
              · exact absurd h (by simp)
              · rename_i ch hch
                simp only [Except.ok.injEq, Option.some.injEq] at h
                subst h
                push_neg at hnot
                refine ⟨_, _, _, _, _, _, _, ds0, de0, _, hfields, htime, rfl,
                  hds, hde, ?_, lt_of_not_le (by simpa using hnot.1),
                  hnot.2, hch, rfl⟩
                simp_all)
        · exact absurd h (by simp)
      · exact absurd h (by simp)
    · exact absurd h (by simp)

/-! ### Decimal digit strings and id suffixes -/

theorem natToDigitsF_digits : ∀ f n : ℕ, ∀ c ∈ natToDigitsF f n,
    isAsciiDigit c = true := by
  intro f
  induction f with
  | zero =>
    intro n c hc
    simp only [natToDigitsF, List.mem_singleton] at hc
    subst hc
    have h10 : n % 10 < 10 := Nat.mod_lt _ (by norm_num)
    unfold isAsciiDigit
    rw [toNat_ofNat_valid (by omega)]
    simp only [Bool.and_eq_true, decide_eq_true_eq]
    omega
  | succ f ih =>
    intro n c hc
    simp only [natToDigitsF] at hc
    split at hc
    · rename_i hn
      simp only [List.mem_singleton] at hc
      subst hc
      unfold isAsciiDigit
      rw [toNat_ofNat_valid (by omega)]
      simp only [Bool.and_eq_true, decide_eq_true_eq]
      omega
    · rcases List.mem_append.mp hc with h | h
      · exact ih _ c h
      · simp only [List.mem_singleton] at h
        subst h
        have h10 : n % 10 < 10 := Nat.mod_lt _ (by norm_num)
        unfold isAsciiDigit
        rw [toNat_ofNat_valid (by omega)]
        simp only [Bool.and_eq_true, decide_eq_true_eq]
        omega

theorem natRepr_digits (n : ℕ) : ∀ c ∈ natRepr n, isAsciiDigit c = true :=
  natToDigitsF_digits n n

theorem digitsVal_append_single (xs : Str) (c : Char) :
    digitsVal (xs ++ [c]) = digitsVal xs * 10 + (c.toNat - 48) := by
  unfold digitsVal
  rw [List.foldl_append]
  rfl

theorem digitsVal_natToDigitsF : ∀ f n : ℕ, n ≤ f →
    digitsVal (natToDigitsF f n) = n := by
  intro f
  induction f with
  | zero =>
    intro n hn
    have : n = 0 := Nat.le_zero.mp hn
    subst this
    simp [natToDigitsF, digitsVal, toNat_ofNat_valid]
  | succ f ih =>
    intro n hn
    simp only [natToDigitsF]
    split
    · rename_i h10
      show digitsVal [Char.ofNat (48 + n)] = n
      simp [digitsVal, toNat_ofNat_valid (show 48 + n < 0xd800 by omega)]
    · rename_i h10
      rw [digitsVal_append_single]
      have hdiv : n / 10 ≤ f := by
        have := Nat.div_lt_self (by omega : 0 < n) (by norm_num : 1 < 10)
        omega
      rw [ih _ hdiv]
      rw [toNat_ofNat_valid (by have := Nat.mod_lt n (by norm_num : (0:ℕ) < 10); omega)]
      have := Nat.div_add_mod n 10
      omega

theorem digitsVal_natRepr (n : ℕ) : digitsVal (natRepr n) = n :=
  digitsVal_natToDigitsF n n (Nat.le_refl n)

theorem digitsVal_replicate_zero (k : ℕ) (l : Str) :
    digitsVal (List.replicate k '0' ++ l) = digitsVal l := by
  induction k with
  | zero => rfl
  | succ k ih =>
    show digitsVal (('0' :: List.replicate k '0') ++ l) = digitsVal l
    unfold digitsVal at ih ⊢
    simpa using ih

theorem digitsVal_pad5 (n : ℕ) : digitsVal (pad5 n) = n := by
  unfold pad5
  rw [digitsVal_replicate_zero, digitsVal_natRepr]

theorem pad5_inj {m n : ℕ} (h : pad5 m = pad5 n) : m = n := by
  have := congrArg digitsVal h
  rwa [digitsVal_pad5, digitsVal_pad5] at this

theorem pad5_digits (n : ℕ) : ∀ c ∈ pad5 n, isAsciiDigit c = true := by
  intro c hc
  rcases List.mem_append.mp hc with h | h
  · rw [List.eq_of_mem_replicate h]
    decide
  · exact natRepr_digits n c h

theorem maxDigitSuffix_append {a d : Str}
    (hd : ∀ c ∈ d, isAsciiDigit c = true) :
    maxDigitSuffix (a ++ '_' :: d) = d := by
  unfold maxDigitSuffix
  rw [show (a ++ '_' :: d).reverse = d.reverse ++ '_' :: a.reverse from by simp]
  rw [takeWhile_append_not (fun c hc => hd c (List.mem_reverse.mp hc)) (by decide)]
  exact List.reverse_reverse d

theorem parseGulfLine_id_suffix {split : GulfSplit} {tc : Bool} {stem : Str}
    {idx : ℕ} {rawLine : Str} {seg : SupervisionSegment}
    (h : parseGulfLine split tc stem idx rawLine = .ok (some seg)) :
    maxDigitSuffix seg.id = pad5 idx := by
  obtain ⟨_, _, _, _, _, _, spk, ds, de, text, -, -, -, -, -, -, -, -, -,
    hseg⟩ := parseGulfLine_inv h
  have : seg.id = (stem ++ '_' :: pads2 spk) ++ '_' :: pad5 idx := by
    rw [hseg]
    simp
  rw [this, maxDigitSuffix_append (pad5_digits idx)]

theorem parseGulfFile_invariant {split : GulfSplit} {tc : Bool} {stem : Str} :
    ∀ {ls : List Str} {idx : ℕ} {segs : List SupervisionSegment},
    parseGulfFile split tc stem idx ls = .ok segs →
    (∀ sg ∈ segs, ∃ k, idx ≤ k ∧ maxDigitSuffix sg.id = pad5 k) ∧
    segs.Pairwise (fun a b => a.id ≠ b.id) := by
  intro ls
  induction ls with
  | nil =>
    intro idx segs h
    simp only [parseGulfFile, Except.ok.injEq] at h
    subst h
    exact ⟨by simp, List.Pairwise.nil⟩
  | cons l ls ih =>
    intro idx segs h
    simp only [parseGulfFile] at h
    split at h
    · exact absurd h (by simp)
    · exact ih h
    · rename_i seg hline
      split at h
      · exact absurd h (by simp)
      · rename_i segs' hrest
        simp only [Except.ok.injEq] at h
        subst h
        obtain ⟨hmem', hpw'⟩ := ih hrest
        constructor
        · intro sg hsg
          rcases List.mem_cons.mp hsg with he | hm
          · exact ⟨idx, Nat.le_refl _, he ▸ parseGulfLine_id_suffix hline⟩
          · obtain ⟨k, hk, hs⟩ := hmem' sg hm
            exact ⟨k, by omega, hs⟩
        · rw [List.pairwise_cons]
          refine ⟨?_, hpw'⟩
          intro b hb heq
          obtain ⟨k, hk, hs⟩ := hmem' b hb
          have h1 := parseGulfLine_id_suffix hline
          rw [heq, hs] at h1
          have := pad5_inj h1
          omega

/-! ### Binary64 model for the qasr flat-format arithmetic -/

/-- Fuel-guided binade search: shifts `q` into `[1, 2)` and counts the
shifts. -/
def qlog2go : ℕ → ℚ → ℤ → ℤ
  | 0, _, acc => acc
  | f + 1, q, acc =>
    if q < 1 then qlog2go f (q * 2) (acc - 1)
    else if 2 ≤ q then qlog2go f (q / 2) (acc + 1)
    else acc

/-- `⌊log₂ q⌋` for positive rationals with magnitude between `2^-600` and
`2^600` (fuel 700 covers every value arising in the recipes). -/
def qlog2 (q : ℚ) : ℤ := qlog2go 700 q 0

/-- Round a rational to the nearest integer, ties to even. -/
def roundHalfEvenZ (m : ℚ) : ℤ :=
  let fl := ⌊m⌋
  let fr := m - (fl : ℚ)
  if fr < 1/2 then fl
  else if 1/2 < fr then fl + 1
  else if fl % 2 = 0 then fl else fl + 1

/-- IEEE-754 binary64 round-to-nearest-even, for values in the normal
range (subnormals and overflow cannot arise from the centisecond
arithmetic of `read_text`). -/
def f64round (q : ℚ) : ℚ :=
  if q = 0 then 0
  else
    let s : ℚ := if q < 0 then -1 else 1
    let a := |q|
    let e := qlog2 a
    s * (roundHalfEvenZ (a * (2 : ℚ) ^ (52 - e)) : ℚ) * (2 : ℚ) ^ (e - 52)

/-- Python `int / int` true division: the correctly rounded double of the
exact quotient. -/
def f64div (a b : ℤ) : ℚ := f64round ((a : ℚ) / (b : ℚ))

/-- IEEE-754 binary64 subtraction (correctly rounded). -/
def f64sub (x y : ℚ) : ℚ := f64round (x - y)

/-- Python `round(x, 10)` on a float: correctly rounded decimal rounding
of the double's exact value, ties to even, returned as a double. -/
def pyRound10 (x : ℚ) : ℚ :=
  f64round ((roundHalfEvenZ (x * 10 ^ 10) : ℚ) / 10 ^ 10)

/-- The duration computed by qasr `read_text` (line 182):
`round(float(int(e)/100) - float(int(s)/100), 10)`. -/
def readTextDuration (sCs eCs : ℤ) : ℚ :=
  pyRound10 (f64sub (f64div eCs 100) (f64div sCs 100))

unseal Rat.mul Rat.add Rat.inv Rat.sub in
example : f64div 200 100 = 2 := by decide

unseal Rat.mul Rat.add Rat.inv Rat.sub in
example : readTextDuration 100 200 = 1 := by decide

/-! ### The qasr flat-format parser (`read_text`) -/

/-- One line of qasr's `read_text` (lines 171-188).  The compound first
token decodes as `recid_spk-N_seg-S:E`; there is no error handling, so a
malformed line raises (`IndexError` for an empty line or a missing `-`
part, `ValueError` for failed unpacking or `int()`).  `float(int(x)/100)`
and the duration are modelled with the binary64 functions above. -/
def readTextLine (line : Str) : Except PyErr SupervisionSegment :=
  match splitWS (pyStrip line) with
  | [] => .error .indexError
  | line1 :: rest =>
    let text := joinSp rest
    match splitOnChar '_' line1 with
    | [recId, spkTok, timeTok] =>
      match splitOnChar '-' spkTok with
      | _ :: spkS :: _ =>
        match pyInt? spkS with
        | none => .error .valueError
        | some spk =>
          match splitOnChar ':' (replaceAll "seg-".data [] timeTok) with
          | [s1, e1] =>
            match pyInt? s1, pyInt? e1 with
            | some sCs, some eCs =>
              .ok { id := recId ++ '_' :: (intRepr spk ++ '_' :: (s1 ++ '_' :: e1))
                    recording_id := recId
                    start := f64div sCs 100
                    duration := readTextDuration sCs eCs
                    channel := 0
                    text := text
                    speaker := .num spk
                    language := some "ar".data }
            | _, _ => .error .valueError
          | _ => .error .valueError
      | _ => .error .indexError
    | _ => .error .valueError

/-- `read_text` over the lines of the transcript file; the first raising
line aborts the call. -/
def readText : List Str → Except PyErr (List SupervisionSegment)
  | [] => .ok []
  | l :: ls =>
    match readTextLine l with
    | .error e => .error e
    | .ok seg =>
      match readText ls with
      | .error e => .error e
      | .ok segs => .ok (seg :: segs)

/-- External recording facts used by the (spec-modelled) manifest fixing
and validation. -/
structure RecordingInfo where
  id : Str
  duration : ℚ
  numChannels : ℕ
deriving DecidableEq

/-- Modelled from the spec: §4.4 ManifestAssembler "fix" — supervisions
whose `recording_id` has no matching recording are dropped (the
within-tolerance truncation repair is not exercised by any claim).  The
implementation (`lhotse.qa.fix_manifests`) is not part of the four recipe
sources. -/
def fixManifests (recs : List RecordingInfo)
    (sups : List SupervisionSegment) : List SupervisionSegment :=
  sups.filter (fun s => recs.any (fun r => r.id = s.recording_id))

/-- Modelled from the spec: §4.4 validate — after fixing, every
supervision must reference an existing recording, lie on a channel within
the recording's channel count, have `start ≥ 0`, and fit within the
recording's duration up to a tolerance `eps`; any violation is a fatal
assembly error.  (`validate_recordings_and_supervisions` is not part of
the four recipe sources.) -/
def validateSups (eps : ℚ) (recs : List RecordingInfo)
    (sups : List SupervisionSegment) : Except PyErr Unit :=
  if sups.all (fun s => recs.any (fun r =>
      decide (r.id = s.recording_id) &&
      decide (0 ≤ s.channel) && decide (s.channel < r.numChannels) &&
      decide (0 ≤ s.start) &&
      decide (s.start + s.duration ≤ r.duration + eps)))
  then .ok () else .error .assertionError

/-- The qasr supervision pipeline for a flat-format part (`prepare_qasr`
lines 101-158): parse the transcript, keep the segments with positive
duration, optionally check the hard-coded release count (`expected`;
5366 for test, 5002 for dev — the spec classifies these as optional
sanity checks), apply the bulk `transform_text(cleaning)` when text
cleaning is enabled, then fix and validate against the recordings. -/
def qasrPrepareSups (eps : ℚ) (expected : Option ℕ) (textCleaning : Bool)
    (recs : List RecordingInfo) (lines : List Str) :
    Except PyErr (List SupervisionSegment) :=
  match readText lines with
  | .error e => .error e
  | .ok segs =>
    let sups := segs.filter (fun s => decide ((0:ℚ) < s.duration))
    if expected.any (fun n => sups.length ≠ n) then .error .assertionError
    else
      let sups := if textCleaning then
        sups.map (fun s => { s with text := qasrCleaning s.text }) else sups
      let fixed := fixManifests recs sups
      match validateSups eps recs fixed with
      | .error e => .error e
      | .ok _ => .ok fixed

/-! ### The callhome_levant line parser and split -/

/-- Python `str.split(maxsplit=n)`: after `n` splits the remainder (with
its leading whitespace consumed as a delimiter, internal and trailing
whitespace kept) is the last token. -/
def splitWSMaxF : ℕ → ℕ → Str → List Str
  | 0, _, _ => []
  | f + 1, maxs, t =>
    match t.dropWhile pyIsSpace with
    | [] => []
    | c :: cs =>
      if maxs = 0 then [c :: cs]
      else
        (c :: cs.takeWhile (fun d => !pyIsSpace d))
          :: splitWSMaxF f (maxs - 1) (cs.dropWhile (fun d => !pyIsSpace d))

def splitWSMax (maxs : ℕ) (t : Str) : List Str := splitWSMaxF t.length maxs t

/-- One iteration of the transcript-line loop of `prepare_callhome_levant`
(lines 91-122).  The guard uses the full whitespace split, the unpacking
uses `maxsplit=3`; the recording id is the lower-cased stem; only the
colon is removed from the speaker tag (digits are kept); the channel is
always `ord(spk) - ord("A")`. -/
def parseLevLine (textCleaning : Bool) (stem : Str) (idx : ℕ)
    (rawLine : Str) : Except PyErr (Option SupervisionSegment) :=
  let line := pyStrip rawLine
  if line = [] ∨ (splitWS line).length < 4 then .ok none
  else
    match splitWSMax 3 line with
    | [startS, endS, spkF, textF] =>
      let recId := stem.map pyLower
      let spk := spkF.filter (fun c => !(c = ':'))
      match pyDecimal? startS, pyDecimal? endS with
      | some ds, some de =>
        let text := if textCleaning then levantCleaning textF else textF
        if de - ds ≤ 0 ∨ text = [] then .ok none
        else
          match (pyOrd spk).map (fun n => (n : ℤ) - 65) with
          | .error e => .error e
          | .ok ch =>
            .ok (some
              { id := recId ++ '_' :: (pads2 spk ++ '_' :: pad5 idx)
                recording_id := recId
                start := ds
                duration := de - ds
                channel := ch
                text := text
                speaker := .str (recId ++ '_' :: pads2 spk) })
      | _, _ => .error .invalidOperation
    | _ => .error .valueError

/-- `re.match("fla_00[0-7][0-9]", id)`: anchored prefix match of the dev
pattern of `lev_split` (line 209). -/
def devMatch (s : Str) : Bool :=
  match s with
  | a0 :: a1 :: a2 :: a3 :: a4 :: a5 :: a6 :: a7 :: _ =>
    a0 = 'f' && a1 = 'l' && a2 = 'a' && a3 = '_' && a4 = '0' && a5 = '0' &&
    (decide (48 ≤ a6.toNat) && decide (a6.toNat ≤ 55)) &&
    (decide (48 ≤ a7.toNat) && decide (a7.toNat ≤ 57))
  | _ => false

/-- `re.match("fla_01[0-7][0-9]", id)`: anchored prefix match of the test
pattern of `lev_split` (line 210). -/
def testMatch (s : Str) : Bool :=
  match s with
  | a0 :: a1 :: a2 :: a3 :: a4 :: a5 :: a6 :: a7 :: _ =>
    a0 = 'f' && a1 = 'l' && a2 = 'a' && a3 = '_' && a4 = '0' && a5 = '1' &&
    (decide (48 ≤ a6.toNat) && decide (a6.toNat ≤ 55)) &&
    (decide (48 ≤ a7.toNat) && decide (a7.toNat ≤ 57))
  | _ => false

/-- The train filter of `lev_split` (line 211): neither the test nor the
dev pattern matches. -/
def levTrainPred (s : Str) : Bool := !testMatch s && !devMatch s

/-- The statements executed by `lev_split` (lines 205-233), in source
order, as an effect trace.  `pdb.set_trace()` (line 206) enters the
interactive debugger, reading commands from standard input. -/
inductive LevSplitEffect
  | pdbSetTrace
  | printTotals
  | buildSplitFilters
  | checkSplitCounts
  | writeSplitFiles
deriving DecidableEq

def levSplitEffects : List LevSplitEffect :=
  [.pdbSetTrace, .printTotals, .buildSplitFilters, .checkSplitCounts,
   .writeSplitFiles]

/-- Whether executing an effect suspends the process waiting for
interactive input: `pdb.set_trace()` does. -/
def effSuspendsForInput : LevSplitEffect → Bool
  | .pdbSetTrace => true
  | _ => false

/-! ### The qasr XML-format id (`make_supervisions`) -/

/-- The id constructed by qasr `make_supervisions` (line 279) for one XML
segment, given the already-parsed attribute values: the part of
`segment["id"]` before `"_utt"`, the speaker index from `segment["who"]`,
and the start/end times in truncated centiseconds, both zero-filled to 7
digits.  The XML traversal itself (BeautifulSoup) is external to this
model. -/
def makeSupXmlId (recPart : Str) (spkNum : ℕ) (stCs enCs : ℕ) : Str :=
  recPart ++ '_' :: (natRepr spkNum ++ '_' ::
    (zfill7 (natRepr stCs) ++ '_' :: zfill7 (natRepr enCs)))

/-! ### Channel and split helper lemmas -/

theorem pyOrd_len_ne_one {s : Str} (h : s.length ≠ 1) :
    pyOrd s = .error .typeError := by
  cases s with
  | nil => rfl
  | cons c cs =>
    cases cs with
    | nil => exact absurd rfl h
    | cons d cs' => rfl

theorem gulfChannel_train1c (spk : Str) :
    gulfChannel GulfSplit.train1c spk = .ok 0 := by
  simp [gulfChannel]

theorem gulfChannel_single {split : GulfSplit} (h : split ≠ GulfSplit.train1c)
    (c : Char) : gulfChannel split [c] = .ok ((c.toNat : ℤ) - 65) := by
  simp [gulfChannel, h, pyOrd, Except.map]

theorem gulfChannel_typeError {split : GulfSplit} {spk : Str}
    (h : split ≠ GulfSplit.train1c) (hl : spk.length ≠ 1) :
    gulfChannel split spk = .error .typeError := by
  simp [gulfChannel, h, pyOrd_len_ne_one hl, Except.map]

theorem devMatch_testMatch_false (s : Str) :
    ¬(devMatch s = true ∧ testMatch s = true) := by
  rintro ⟨hd, ht⟩
  rcases s with _ | ⟨a0, _ | ⟨a1, _ | ⟨a2, _ | ⟨a3, _ | ⟨a4, _ | ⟨a5, _ |
    ⟨a6, _ | ⟨a7, rest⟩⟩⟩⟩⟩⟩⟩⟩ <;>
    simp only [devMatch, testMatch, Bool.and_eq_true, decide_eq_true_eq]
      at hd ht <;>
    try exact absurd hd (by decide)
  have e1 := hd.1.1.2
  have e2 := ht.1.1.2
  rw [e1] at e2
  exact absurd e2 (by decide)

theorem filter_three_partition {α : Type _} (p q : α → Bool)
    (hdisj : ∀ a, ¬(p a = true ∧ q a = true)) :
    ∀ l : List α,
      (l.filter (fun a => !q a && !p a)).length +
      (l.filter p).length + (l.filter q).length = l.length := by
  intro l
  induction l with
  | nil => simp
  | cons a t ih =>
    by_cases hp : p a = true
    · have hq : q a = false := by
        cases hq0 : q a
        · rfl
        · exact absurd ⟨hp, hq0⟩ (hdisj a)
      simp [List.filter_cons, hp, hq]
      omega
    · have hp' : p a = false := by simpa using hp
      by_cases hq : q a = true
      · simp [List.filter_cons, hp', hq]
        omega
      · have hq' : q a = false := by simpa using hq
        simp [List.filter_cons, hp', hq']
        omega

/-! ### Claim theorems -/

/-- C7: the Levantine split partitions the assembled set — for every
recording id exactly one of the dev, test, train matchers accepts it, and
for every recording list and supervision list the three filtered subsets
have lengths summing to the whole. -/
theorem c7_split_partition :
    (∀ id : Str,
      (devMatch id = true ∧ testMatch id = false ∧ levTrainPred id = false) ∨
      (devMatch id = false ∧ testMatch id = true ∧ levTrainPred id = false) ∨
      (devMatch id = false ∧ testMatch id = false ∧ levTrainPred id = true)) ∧
    (∀ recs : List RecordingInfo,
      (recs.filter (fun r => levTrainPred r.id)).length +
      (recs.filter (fun r => devMatch r.id)).length +
      (recs.filter (fun r => testMatch r.id)).length = recs.length) ∧
    (∀ sups : List SupervisionSegment,
      (sups.filter (fun s => levTrainPred s.recording_id)).length +
      (sups.filter (fun s => devMatch s.recording_id)).length +
      (sups.filter (fun s => testMatch s.recording_id)).length = sups.length) := by
  refine ⟨?_, ?_, ?_⟩
  · intro id
    by_cases hd : devMatch id = true
    · have ht : testMatch id = false := by
        cases ht0 : testMatch id
        · rfl
        · exact absurd ⟨hd, ht0⟩ (devMatch_testMatch_false id)
      exact Or.inl ⟨hd, ht, by simp [levTrainPred, hd, ht]⟩
    · have hd' : devMatch id = false := by simpa using hd
      by_cases ht : testMatch id = true
      · exact Or.inr (Or.inl ⟨hd', ht, by simp [levTrainPred, hd', ht]⟩)
      · have ht' : testMatch id = false := by simpa using ht
        exact Or.inr (Or.inr ⟨hd', ht', by simp [levTrainPred, hd', ht']⟩)
  · intro recs
    exact filter_three_partition (fun r => devMatch r.id)
      (fun r => testMatch r.id)
      (fun r => devMatch_testMatch_false r.id) recs
  · intro sups
    exact filter_three_partition (fun s => devMatch s.recording_id)
      (fun s => testMatch s.recording_id)
      (fun s => devMatch_testMatch_false s.recording_id) sups

/-- C9: the claim says no pipeline operation suspends for interactive
input; the very first statement of `lev_split` is `pdb.set_trace()`, which
suspends the process waiting for interactive debugger input.  (Recorded as
a code bug: the spec's §9 itself flags the leftover breakpoints.) -/
theorem c9_lev_split_blocks :
    levSplitEffects.head? = some LevSplitEffect.pdbSetTrace ∧
    effSuspendsForInput LevSplitEffect.pdbSetTrace = true := by
  decide

/-- C6: channel assignment — the `train1c` split fixes every channel to 0
(also at the parser level), and on the two-channel splits a single-letter
speaker tag maps to its ordinal offset from `'A'`, so `"A"` gives channel
0 and `"B"` gives channel 1. -/
theorem c6_channel_assignment :
    (∀ spk : Str, gulfChannel GulfSplit.train1c spk = .ok 0) ∧
    (∀ split : GulfSplit, split ≠ GulfSplit.train1c →
      ∀ c : Char, gulfChannel split [c] = .ok ((c.toNat : ℤ) - 65)) ∧
    gulfChannel GulfSplit.devtest ['A'] = .ok 0 ∧
    gulfChannel GulfSplit.train2c ['B'] = .ok 1 ∧
    (∀ (tc : Bool) (stem : Str) (idx : ℕ) (line : Str)
       (seg : SupervisionSegment),
      parseGulfLine GulfSplit.train1c tc stem idx line = .ok (some seg) →
      seg.channel = 0) := by
  refine ⟨gulfChannel_train1c, fun split h c => gulfChannel_single h c,
    by decide, by decide, ?_⟩
  intro tc stem idx line seg h
  obtain ⟨_, _, _, _, _, _, spk, ds, de, text, -, -, -, -, -, -, -, -, hch,
    -⟩ := parseGulfLine_inv h
  rw [gulfChannel_train1c] at hch
  exact (Except.ok.inj hch).symm

/-- C6 witness: on the two-channel `devtest` split the tag `"B"` maps to
channel `'B' - 'A' = 1`. -/
theorem c6_channel_assignment_witness :
    gulfChannel GulfSplit.devtest ['B'] = .ok (('B'.toNat : ℤ) - 65) ∧
    gulfChannel GulfSplit.devtest ['B'] = .ok 1 :=
  ⟨c6_channel_assignment.2.1 GulfSplit.devtest (by decide) 'B', by decide⟩

/-- C5 (amended): in the tab-delimited format a line that is empty after
trimming, or that splits into fewer than four tab fields, is skipped
without error; a line with more than four tab fields, and any malformed
flat-format line, raises instead of being skipped (see the
counterexample). -/
theorem c5_malformed_skip :
    ∀ (split : GulfSplit) (tc : Bool) (stem : Str) (idx : ℕ) (line : Str),
      (pyStrip line = [] ∨ (splitOnChar '\t' (pyStrip line)).length < 4) →
      parseGulfLine split tc stem idx line = .ok none := by
  intro split tc stem idx line h
  simp only [parseGulfLine]
  rw [if_pos h]

/-- C5 witness: a whitespace-only line and a two-field line are both
skipped. -/
theorem c5_malformed_skip_witness :
    (pyStrip "  ".data = [] ∨
      (splitOnChar '\t' (pyStrip "  ".data)).length < 4) ∧
    parseGulfLine GulfSplit.devtest true "x".data 0 "  ".data = .ok none ∧
    (pyStrip "a\tb".data = [] ∨
      (splitOnChar '\t' (pyStrip "a\tb".data)).length < 4) ∧
    parseGulfLine GulfSplit.devtest true "x".data 0 "a\tb".data = .ok none :=
  ⟨by decide, c5_malformed_skip _ _ _ _ _ (by decide),
   by decide, c5_malformed_skip _ _ _ _ _ (by decide)⟩

/-- C5 counterexample: a tab line with five fields is not skipped — the
4-way unpacking raises `ValueError` — and a flat-format line whose
compound id does not decode raises instead of yielding zero segments. -/
theorem c5_counterexample :
    parseGulfLine GulfSplit.devtest false "x".data 0
      "a\tb\tc\td\te".data = .error .valueError ∧
    readText ["abc".data] = .error .valueError := by
  exact ⟨by decide, by decide⟩

/-- C10: on a two-channel split, an otherwise well-formed line (four
fields, parseable timestamps, positive duration, non-empty text) whose
stripped speaker tag is not exactly one character makes the whole
preparation call raise `TypeError` (from `ord`), instead of being skipped
— in callhome_gulf and likewise in callhome_levant, where the channel is
always computed from `ord`. -/
theorem c10_multichar_speaker_typeerror :
    (∀ (split : GulfSplit) (tc : Bool) (stem : Str) (idx : ℕ)
       (rawLine timeF spkF textF textBW startS endS : Str) (ds de : ℚ),
      split ≠ GulfSplit.train1c →
      ¬(pyStrip rawLine = [] ∨
        (splitOnChar '\t' (pyStrip rawLine)).length < 4) →
      splitOnChar '\t' (pyStrip rawLine) = [timeF, spkF, textF, textBW] →
      splitWS (timeF.filter (fun c => !(c = '[' || c = ']'))) =
        [startS, endS] →
      pyDecimal? startS = some ds →
      pyDecimal? endS = some de →
      0 < de - ds →
      (if tc then gulfCleaning textF else textF) ≠ [] →
      ((spkF.filter (fun c => !(c = ':'))).filter
        (fun c => !isAsciiDigit c)).length ≠ 1 →
      parseGulfLine split tc stem idx rawLine = .error .typeError) ∧
    (∀ (tc : Bool) (stem : Str) (idx : ℕ)
       (rawLine startS endS spkF textF : Str) (ds de : ℚ),
      ¬(pyStrip rawLine = [] ∨ (splitWS (pyStrip rawLine)).length < 4) →
      splitWSMax 3 (pyStrip rawLine) = [startS, endS, spkF, textF] →
      pyDecimal? startS = some ds →
      pyDecimal? endS = some de →
      0 < de - ds →
      (if tc then levantCleaning textF else textF) ≠ [] →
      (spkF.filter (fun c => !(c = ':'))).length ≠ 1 →
      parseLevLine tc stem idx rawLine = .error .typeError) := by
  constructor
  · intro split tc stem idx rawLine timeF spkF textF textBW startS endS ds de
      hsplit hguard hfields htime hds hde hpos htext hlen
    simp only [parseGulfLine]
    rw [if_neg hguard]
    simp only [hfields, htime, hds, hde]
    rw [if_neg (by push_neg; exact ⟨hpos, htext⟩)]
    simp only [gulfChannel_typeError hsplit hlen]
  · intro tc stem idx rawLine startS endS spkF textF ds de
      hguard hfields hds hde hpos htext hlen
    simp only [parseLevLine]
    rw [if_neg hguard]
    simp only [hfields, hds, hde]
    rw [if_neg (by push_neg; exact ⟨hpos, htext⟩)]
    rw [pyOrd_len_ne_one hlen]
    rfl

unseal Rat.mul Rat.add Rat.inv Rat.sub in
/-- C10 witness: a two-character speaker tag `"AB:"` on otherwise
well-formed gulf and levantine lines raises `TypeError`. -/
theorem c10_multichar_speaker_typeerror_witness :
    parseGulfLine GulfSplit.devtest false "x".data 0
      "[0.0] [1.0]\tAB:\thi\tbw".data = .error .typeError ∧
    parseLevLine false "X".data 0 "0.0 1.0 AB: hi".data =
      .error .typeError := by
  constructor
  · exact c10_multichar_speaker_typeerror.1 GulfSplit.devtest false "x".data 0
      "[0.0] [1.0]\tAB:\thi\tbw".data "[0.0] [1.0]".data "AB:".data
      "hi".data "bw".data "0.0".data "1.0".data 0 1
      (by decide) (by decide) (by decide) (by decide) (by decide) (by decide)
      (by decide) (by decide) (by decide)
  · exact c10_multichar_speaker_typeerror.2 false "X".data 0
      "0.0 1.0 AB: hi".data "0.0".data "1.0".data "AB:".data "hi".data 0 1
      (by decide) (by decide) (by decide) (by decide) (by decide) (by decide)
      (by decide)

/-- Every segment of a successfully returned qasr manifest has positive
duration (the filter) and non-negative start (the validation). -/
theorem qasrSups_invariants {eps : ℚ} {expected : Option ℕ} {tc : Bool}
    {recs : List RecordingInfo} {lines : List Str}
    {segs : List SupervisionSegment}
    (h : qasrPrepareSups eps expected tc recs lines = .ok segs) :
    ∀ sg ∈ segs, 0 < sg.duration ∧ 0 ≤ sg.start := by
  simp only [qasrPrepareSups] at h
  split at h
  · exact absurd h (by simp)
  · rename_i segs0 hrt
    split at h
    · exact absurd h (by simp)
    · split at h
      · exact absurd h (by simp)
      · rename_i hval
        simp only [Except.ok.injEq] at h
        subst h
        intro sg hsg
        by_cases htc : tc = true
        · rw [if_pos htc] at hsg hval
          constructor
          · have hmem := (List.mem_filter.mp hsg).1
            obtain ⟨s0, hs0, he⟩ := List.mem_map.mp hmem
            have hd : (0:ℚ) < s0.duration :=
              of_decide_eq_true (List.mem_filter.mp hs0).2
            rw [← he]
            exact hd
          · unfold validateSups at hval
            split at hval
            · rename_i hall
              obtain ⟨r, hr, hpred⟩ :=
                List.any_eq_true.mp (List.all_eq_true.mp hall sg hsg)
              simp only [Bool.and_eq_true, decide_eq_true_eq] at hpred
              exact hpred.1.2
            · exact absurd hval (by simp)
        · rw [if_neg htc] at hsg hval
          constructor
          · exact of_decide_eq_true
              (List.mem_filter.mp (List.mem_filter.mp hsg).1).2
          · unfold validateSups at hval
            split at hval
            · rename_i hall
              obtain ⟨r, hr, hpred⟩ :=
                List.any_eq_true.mp (List.all_eq_true.mp hall sg hsg)
              simp only [Bool.and_eq_true, decide_eq_true_eq] at hpred
              exact hpred.1.2
            · exact absurd hval (by simp)

unseal Rat.mul Rat.add Rat.inv Rat.sub in
/-- C2 counterexample: the qasr pipeline emits a segment with empty
cleaned text — the line's text `"."` passes the duration filter and is
cleaned to the empty string by the bulk `transform_text` applied
afterwards, so the claim "no segment with empty cleaned text is ever
emitted" is false. -/
theorem c2_empty_text_emitted :
    qasrPrepareSups 0 none true
      [{ id := "rec".data, duration := 10, numChannels := 1 }]
      ["rec_spk-1_seg-100:200 .".data] =
      .ok [{ id := "rec_1_100_200".data, recording_id := "rec".data,
             start := 1, duration := 1, channel := 0, text := [],
             speaker := .num 1, language := some "ar".data }] ∧
    ([] : Str) = "".data := by
  exact ⟨by decide, rfl⟩

/-- C3 (amended): within one transcript file the tab-format segment ids
are pairwise distinct — the zero-padded per-file counter is recoverable
as the maximal digit suffix of the id and strictly increases.  (Across
files with adversarial stems, and in the flat qasr format, ids can
collide; see the counterexample.) -/
theorem c3_ids_distinct_per_file :
    ∀ (split : GulfSplit) (tc : Bool) (stem : Str) (lines : List Str)
      (segs : List SupervisionSegment),
      parseGulfFile split tc stem 0 lines = .ok segs →
      (segs.map SupervisionSegment.id).Nodup := by
  intro split tc stem lines segs h
  have hpw := (parseGulfFile_invariant h).2
  exact List.Pairwise.map _ (fun a b hab => hab) hpw

unseal Rat.mul Rat.add Rat.inv Rat.sub in
/-- C3 witness: two well-formed lines in one file produce segments with
distinct ids `x_0A_00000` and `x_0A_00001`. -/
theorem c3_ids_distinct_per_file_witness :
    parseGulfFile GulfSplit.devtest false "x".data 0
      ["[0.0] [1.0]\tA:\thi\tbw".data, "[1.0] [2.5]\tA:\tyo\tbw".data] =
      .ok [{ id := "x_0A_00000".data, recording_id := "x".data, start := 0,
             duration := 1, channel := 0, text := "hi".data,
             speaker := .str "x_0A".data },
           { id := "x_0A_00001".data, recording_id := "x".data, start := 1,
             duration := 3/2, channel := 0, text := "yo".data,
             speaker := .str "x_0A".data }] ∧
    (([{ id := "x_0A_00000".data, recording_id := "x".data, start := 0,
         duration := 1, channel := 0, text := "hi".data,
         speaker := .str "x_0A".data },
       { id := "x_0A_00001".data, recording_id := "x".data, start := 1,
         duration := 3/2, channel := 0, text := "yo".data,
         speaker := .str "x_0A".data }] :
       List SupervisionSegment).map SupervisionSegment.id).Nodup :=
  ⟨by decide, c3_ids_distinct_per_file GulfSplit.devtest false "x".data
    ["[0.0] [1.0]\tA:\thi\tbw".data, "[1.0] [2.5]\tA:\tyo\tbw".data] _
    (by decide)⟩

unseal Rat.mul Rat.add Rat.inv Rat.sub in
/-- C3 counterexample: a single qasr recipe run over a flat transcript
with two lines carrying the same compound id produces two segments with
the same id — the flat-format ids are derived from the line content, not
from a counter, so they are not pairwise distinct. -/
theorem c3_duplicate_flat_ids :
    qasrPrepareSups 0 none false
      [{ id := "rec".data, duration := 10, numChannels := 1 }]
      ["rec_spk-1_seg-100:200 hi".data, "rec_spk-1_seg-100:200 yo".data] =
      .ok [{ id := "rec_1_100_200".data, recording_id := "rec".data,
             start := 1, duration := 1, channel := 0, text := "hi".data,
             speaker := .num 1, language := some "ar".data },
           { id := "rec_1_100_200".data, recording_id := "rec".data,
             start := 1, duration := 1, channel := 0, text := "yo".data,
             speaker := .num 1, language := some "ar".data }] ∧
    ¬(([{ id := "rec_1_100_200".data, recording_id := "rec".data,
          start := 1, duration := 1, channel := 0, text := "hi".data,
          speaker := .num 1, language := some "ar".data },
        { id := "rec_1_100_200".data, recording_id := "rec".data,
          start := 1, duration := 1, channel := 0, text := "yo".data,
          speaker := .num 1, language := some "ar".data }] :
        List SupervisionSegment).map SupervisionSegment.id).Nodup := by
  exact ⟨by decide, by decide⟩

theorem pad5_length (n : ℕ) : (pad5 n).length = max 5 (natRepr n).length := by
  unfold pad5
  rw [List.length_append, List.length_replicate]
  omega

theorem zfill7_length (t : Str) : (zfill7 t).length = max 7 t.length := by
  unfold zfill7
  rw [List.length_append, List.length_replicate]
  omega

/-- C8 (amended): the tab-format segment ids embed the per-file counter
zero-padded to width 5 (it is the maximal digit suffix of the id and its
decimal value is the counter), and the XML-format ids embed both
centisecond timestamps zero-filled to width 7; the flat-format ids of
`read_text`, however, embed the raw timestamp strings with no padding
(see the counterexample), so the claimed 7-digit padding does not hold in
every format family. -/
theorem c8_id_zero_padding :
    (∀ (split : GulfSplit) (tc : Bool) (stem : Str) (idx : ℕ) (line : Str)
       (seg : SupervisionSegment),
      parseGulfLine split tc stem idx line = .ok (some seg) →
      maxDigitSuffix seg.id = pad5 idx ∧
      (pad5 idx).length = max 5 (natRepr idx).length ∧
      digitsVal (pad5 idx) = idx) ∧
    (∀ (recPart : Str) (spkNum stCs enCs : ℕ),
      makeSupXmlId recPart spkNum stCs enCs =
        recPart ++ '_' :: (natRepr spkNum ++ '_' ::
          (zfill7 (natRepr stCs) ++ '_' :: zfill7 (natRepr enCs))) ∧
      7 ≤ (zfill7 (natRepr stCs)).length ∧
      7 ≤ (zfill7 (natRepr enCs)).length) := by
  constructor
  · intro split tc stem idx line seg h
    exact ⟨parseGulfLine_id_suffix h, pad5_length idx, digitsVal_pad5 idx⟩
  · intro recPart spkNum stCs enCs
    refine ⟨rfl, ?_, ?_⟩ <;> rw [zfill7_length] <;> omega

unseal Rat.mul Rat.add Rat.inv Rat.sub in
/-- C8 witness: the third appended segment of a file carries the 5-digit
counter component `00003`. -/
theorem c8_id_zero_padding_witness :
    maxDigitSuffix
      ({ id := "x_0A_00003".data, recording_id := "x".data, start := 0,
         duration := 1, channel := 0, text := "hi".data,
         speaker := .str "x_0A".data } : SupervisionSegment).id = pad5 3 ∧
    (pad5 3).length = max 5 (natRepr 3).length ∧
    digitsVal (pad5 3) = 3 :=
  c8_id_zero_padding.1 GulfSplit.devtest false "x".data 3
    "[0.0] [1.0]\tA:\thi\tbw".data _ (by decide)

unseal Rat.mul Rat.add Rat.inv Rat.sub in
/-- C8 counterexample: the flat-format id embeds the raw timestamp string
`"200"` — three characters, not zero-padded to 7 — so the claim that
every format family pads timestamp components to 7 digits is false. -/
theorem c8_flat_id_not_padded :
    readTextLine "rec_spk-1_seg-100:200 hi".data =
      .ok { id := "rec_1_100_200".data, recording_id := "rec".data,
            start := 1, duration := 1, channel := 0, text := "hi".data,
            speaker := .num 1, language := some "ar".data } ∧
    maxDigitSuffix "rec_1_100_200".data = "200".data ∧
    ("200".data).length = 3 ∧
    zfill7 "200".data ≠ "200".data := by
  exact ⟨by decide, by decide, by decide, by decide⟩

/-! ### C4: duration arithmetic -/

theorem readTextLine_inv {line : Str} {seg : SupervisionSegment}
    (h : readTextLine line = .ok seg) :
    ∃ line1 recId spkTok timeTok s1 e1 : Str, ∃ rest : List Str,
    ∃ sCs eCs : ℤ,
      splitWS (pyStrip line) = line1 :: rest ∧
      splitOnChar '_' line1 = [recId, spkTok, timeTok] ∧
      splitOnChar ':' (replaceAll "seg-".data [] timeTok) = [s1, e1] ∧
      pyInt? s1 = some sCs ∧ pyInt? e1 = some eCs ∧
      seg.start = f64div sCs 100 ∧
      seg.duration = pyRound10 (f64sub (f64div eCs 100) (f64div sCs 100)) := by
  simp only [readTextLine] at h
  split at h
  · exact absurd h (by simp)
  · rename_i line1 rest hsplit
    split at h
    · rename_i recId spkTok timeTok hline1
      split at h
      · rename_i hd spkS tl hspk
        split at h
        · exact absurd h (by simp)
        · rename_i spk hspkInt
          split at h
          · rename_i s1 e1 htime
            split at h
            · rename_i sCs eCs hs he
              simp only [Except.ok.injEq] at h
              subst h
              exact ⟨line1, recId, spkTok, timeTok, s1, e1, rest, sCs, eCs,
                hsplit, hline1, htime, hs, he, rfl, rfl⟩
            all_goals exact absurd h (by simp)
          all_goals exact absurd h (by simp)
      all_goals exact absurd h (by simp)
    all_goals exact absurd h (by simp)

unseal Rat.mul Rat.add Rat.inv Rat.sub in
/-- C4 (amended): in the tab format the duration is the exact decimal
difference `Decimal(end) - Decimal(start)` of the two timestamp strings,
and on the example `start="3.2701"`, `end="5.4100"` that difference is
exactly `2.1399`, which survives conversion to binary64 to well within
`10^-4`; in the flat time-coded format, however, the duration is
`round(int(e)/100 - int(s)/100, 10)` computed in binary64 floating-point
arithmetic — float division, float subtraction, float decimal rounding —
not the exact integer centisecond difference (see the counterexample). -/
theorem c4_duration_exact_decimal :
    (∀ (split : GulfSplit) (tc : Bool) (stem : Str) (idx : ℕ) (line : Str)
       (seg : SupervisionSegment),
      parseGulfLine split tc stem idx line = .ok (some seg) →
      ∃ timeF spkF textF textBW startS endS ds de,
        splitOnChar '\t' (pyStrip line) = [timeF, spkF, textF, textBW] ∧
        splitWS (timeF.filter (fun c => !(c = '[' || c = ']'))) =
          [startS, endS] ∧
        pyDecimal? startS = some ds ∧ pyDecimal? endS = some de ∧
        seg.start = ds ∧ seg.duration = de - ds) ∧
    (pyDecimal? "3.2701".data = some (32701 / 10000 : ℚ) ∧
     pyDecimal? "5.4100".data = some (541 / 100 : ℚ) ∧
     (541 / 100 : ℚ) - 32701 / 10000 = 21399 / 10000 ∧
     |f64round (21399 / 10000) - (21399 / 10000 : ℚ)| < 1 / 10 ^ 4) ∧
    (∀ (line : Str) (seg : SupervisionSegment),
      readTextLine line = .ok seg →
      ∃ line1 recId spkTok timeTok s1 e1 : Str, ∃ rest : List Str,
      ∃ sCs eCs : ℤ,
        splitWS (pyStrip line) = line1 :: rest ∧
        splitOnChar '_' line1 = [recId, spkTok, timeTok] ∧
        splitOnChar ':' (replaceAll "seg-".data [] timeTok) = [s1, e1] ∧
        pyInt? s1 = some sCs ∧ pyInt? e1 = some eCs ∧
        seg.start = f64div sCs 100 ∧
        seg.duration =
          pyRound10 (f64sub (f64div eCs 100) (f64div sCs 100))) := by
  refine ⟨?_, ⟨by decide, by decide, by norm_num, ?_⟩, ?_⟩
  · intro split tc stem idx line seg h
    obtain ⟨timeF, spkF, textF, textBW, startS, endS, spk, ds, de, text,
      h1, h2, _, h4, h5, _, _, _, _, hseg⟩ := parseGulfLine_inv h
    exact ⟨timeF, spkF, textF, textBW, startS, endS, ds, de, h1, h2, h4, h5,
      by rw [hseg], by rw [hseg]⟩
  · have hv : f64round (21399 / 10000) =
        (2409313210652531 / 1125899906842624 : ℚ) := by decide
    rw [hv, abs_sub_lt_iff]
    constructor <;> norm_num
  · intro line seg h
    exact readTextLine_inv h

unseal Rat.mul Rat.add Rat.inv Rat.sub in
/-- C4 witness: the amended theorem applied to the spec's example tab line
`[3.2701] [5.4100]<TAB>B:<TAB>hi<TAB>bw` and to a concrete flat line
`rec_spk-1_seg-100:200 hi`. -/
theorem c4_duration_exact_decimal_witness :
    (∃ timeF spkF textF textBW startS endS ds de,
      splitOnChar '\t'
          (pyStrip "[3.2701] [5.4100]\tB:\thi\tbw".data) =
        [timeF, spkF, textF, textBW] ∧
      splitWS (timeF.filter (fun c => !(c = '[' || c = ']'))) =
        [startS, endS] ∧
      pyDecimal? startS = some ds ∧ pyDecimal? endS = some de ∧
      ({ id := "x_0B_00000".data, recording_id := "x".data,
         start := 32701 / 10000, duration := 21399 / 10000, channel := 1,
         text := "hi".data, speaker := .str "x_0B".data } :
        SupervisionSegment).start = ds ∧
      ({ id := "x_0B_00000".data, recording_id := "x".data,
         start := 32701 / 10000, duration := 21399 / 10000, channel := 1,
         text := "hi".data, speaker := .str "x_0B".data } :
        SupervisionSegment).duration = de - ds) ∧
    (∃ line1 recId spkTok timeTok s1 e1 : Str, ∃ rest : List Str,
     ∃ sCs eCs : ℤ,
      splitWS (pyStrip "rec_spk-1_seg-100:200 hi".data) = line1 :: rest ∧
      splitOnChar '_' line1 = [recId, spkTok, timeTok] ∧
      splitOnChar ':' (replaceAll "seg-".data [] timeTok) = [s1, e1] ∧
      pyInt? s1 = some sCs ∧ pyInt? e1 = some eCs ∧
      ({ id := "rec_1_100_200".data, recording_id := "rec".data,
         start := 1, duration := 1, channel := 0, text := "hi".data,
         speaker := .num 1, language := some "ar".data } :
        SupervisionSegment).start = f64div sCs 100 ∧
      ({ id := "rec_1_100_200".data, recording_id := "rec".data,
         start := 1, duration := 1, channel := 0, text := "hi".data,
         speaker := .num 1, language := some "ar".data } :
        SupervisionSegment).duration =
        pyRound10 (f64sub (f64div eCs 100) (f64div sCs 100))) :=
  ⟨c4_duration_exact_decimal.1 GulfSplit.devtest false "x".data 0
      "[3.2701] [5.4100]\tB:\thi\tbw".data
      { id := "x_0B_00000".data, recording_id := "x".data,
        start := 32701 / 10000, duration := 21399 / 10000, channel := 1,
        text := "hi".data, speaker := .str "x_0B".data } (by decide),
   c4_duration_exact_decimal.2.2 "rec_spk-1_seg-100:200 hi".data
      { id := "rec_1_100_200".data, recording_id := "rec".data,
        start := 1, duration := 1, channel := 0, text := "hi".data,
        speaker := .num 1, language := some "ar".data } (by decide)⟩

unseal Rat.mul Rat.add Rat.inv Rat.sub in
/-- C4 counterexample: the flat-format line
`rec_spk-1_seg-87:109951162777613 hi` gets the binary64-computed duration
`9007199254734929/8192`, which differs from the exact centisecond
difference `(109951162777613 - 87)/100` by `23/204800 ≈ 1.123e-4`, i.e.
by more than `10^-4` — so the flat format does not avoid floating-point
timestamp arithmetic and its duration is not the exact integer
centisecond difference. -/
theorem c4_flat_duration_not_exact :
    readTextLine "rec_spk-1_seg-87:109951162777613 hi".data =
      .ok { id := "rec_1_87_109951162777613".data,
            recording_id := "rec".data,
            start := 7836263351624663 / 9007199254740992,
            duration := 9007199254734929 / 8192, channel := 0,
            text := "hi".data, speaker := .num 1,
            language := some "ar".data } ∧
    readTextDuration 87 109951162777613 ≠
      ((109951162777613 : ℚ) - 87) / 100 ∧
    (1 : ℚ) / 10 ^ 4 <
      |readTextDuration 87 109951162777613 -
        ((109951162777613 : ℚ) - 87) / 100| := by
  have hv : readTextDuration 87 109951162777613 =
      (9007199254734929 / 8192 : ℚ) := by decide
  refine ⟨by decide, ?_, ?_⟩
  · rw [hv]
    norm_num
  · rw [hv, abs_sub_comm, abs_of_nonneg (by norm_num)]
    norm_num

/-! ### C2: faithful Decimal/float grammars and the full tab pipelines -/

/-- A `decimal.Decimal` value as constructed from a string: a finite
rational, a quiet `NaN` (the payload digits are irrelevant to the
recipes' control flow), a signalling `sNaN`, or a signed infinity. -/
inductive PyDec
  | fin (q : ℚ)
  | nan
  | snan
  | inf (neg : Bool)
deriving DecidableEq

/-- PEP 515 underscore grouping as accepted by `float`: every underscore
must sit directly between two ASCII digits; valid underscores are
removed, an ill-placed one invalidates the whole string.  (`Decimal` is
laxer and removes underscores unconditionally; see `parseDecimal`.) -/
def stripUSGo : Option Char → Str → Option Str
  | _, [] => some []
  | prev, c :: rest =>
    if c = '_' then
      match prev, rest with
      | some p, n :: _ =>
        if isAsciiDigit p && isAsciiDigit n then stripUSGo (some c) rest
        else none
      | _, _ => none
    else (stripUSGo (some c) rest).map (fun t => c :: t)

def stripUnderscores (t : Str) : Option Str := stripUSGo none t

/-- Case-insensitive keyword prefix: drops `kw` from the front of `t`
when `t` starts with it up to `pyLower`, returning the remainder. -/
def dropLowerKw : Str → Str → Option Str
  | [], rest => some rest
  | _ :: _, [] => none
  | k :: ks, c :: cs => if pyLower c = k then dropLowerKw ks cs else none

/-- Splits a numeric body at the first exponent indicator `e`/`E`. -/
def splitOnE : Str → Str × Option Str
  | [] => ([], none)
  | c :: cs =>
    if c = 'e' ∨ c = 'E' then ([], some cs)
    else
      let r := splitOnE cs
      (c :: r.1, r.2)

/-- The `decimal-part` of the `decimal` module's grammar:
`digits [. digits] | [.] digits`. -/
def decMantissa? (m : Str) : Option ℚ :=
  match splitOnChar '.' m with
  | [ip] => if allDigits ip then some (digitsVal ip : ℚ) else none
  | [ip, fp] =>
    if (ip ≠ [] ∨ fp ≠ []) ∧ ip.all isAsciiDigit ∧ fp.all isAsciiDigit then
      some ((digitsVal ip : ℚ) + (digitsVal fp : ℚ) / 10 ^ fp.length)
    else none
  | _ => none

/-- The `exponent-part` after the indicator: an optional sign and a
non-empty digit run. -/
def decExp? (e : Str) : Option ℤ :=
  match e with
  | '-' :: r => if allDigits r then some (-(digitsVal r : ℤ)) else none
  | '+' :: r => if allDigits r then some (digitsVal r : ℤ) else none
  | _ => if allDigits e then some (digitsVal e : ℤ) else none

/-- A finite (sign-free) numeric value: mantissa with an optional
exponent, exact as a rational. -/
def decFinite? (body : Str) : Option ℚ :=
  match splitOnE body with
  | (m, none) => decMantissa? m
  | (m, some e) =>
    match decMantissa? m, decExp? e with
    | some q, some ex => some (q * (10 : ℚ) ^ ex)
    | _, _ => none

/-- A sign-free `Decimal` value: `Inf`/`Infinity`, `sNaN`/`NaN` with an
optional digit payload (all case-insensitive), or a finite numeric. -/
def decUnsigned? (body : Str) : Option PyDec :=
  if body.map pyLower = "inf".data ∨ body.map pyLower = "infinity".data then
    some (.inf false)
  else
    match dropLowerKw "snan".data body with
    | some rest => if rest = [] ∨ allDigits rest then some .snan else none
    | none =>
      match dropLowerKw "nan".data body with
      | some rest => if rest = [] ∨ allDigits rest then some .nan else none
      | none => (decFinite? body).map .fin

/-- Python `decimal.Decimal(str)` over the full numeric-string grammar of
the `decimal` module: surrounding whitespace is stripped, underscores are
then removed wherever they occur (CPython's `Decimal` deletes them
unconditionally, without the between-digits check that `float` applies),
and what remains is an optional sign followed by a finite value
(optionally with an `E` exponent), an infinity, or a (signalling) NaN
with an optional digit payload, case-insensitive throughout.  Unicode
digits and non-ASCII whitespace (normalised to ASCII by CPython before
parsing) are outside the modelled alphabet.  An invalid string raises
`InvalidOperation`. -/
def parseDecimal (t : Str) : Option PyDec :=
  match (pyStrip t).filter (fun c => !(c = '_')) with
  | '-' :: r => (decUnsigned? r).map (fun v =>
      match v with
      | .fin q => .fin (-q)
      | .inf _ => .inf true
      | v => v)
  | '+' :: r => decUnsigned? r
  | s => decUnsigned? s

/-- Python `float(str)`: like the `Decimal` grammar but with no payload
or signalling NaNs.  The value is kept exactly (binary64 rounding,
including underflow to `0.0` and overflow to `inf`, is not modelled: it
only makes the model append where the program skips a zero-rounded
duration, or keep a huge finite value whose segment validation rejects
just as it rejects the program's infinity).  An invalid string raises
`ValueError`. -/
def pyFloat? (t : Str) : Option PyDec :=
  match stripUnderscores (pyStrip t) with
  | none => none
  | some s =>
    let core : Str → Option PyDec := fun body =>
      if body.map pyLower = "inf".data ∨ body.map pyLower = "infinity".data
      then some (.inf false)
      else if body.map pyLower = "nan".data then some .nan
      else (decFinite? body).map .fin
    match s with
    | '-' :: r => (core r).map (fun v =>
        match v with
        | .fin q => .fin (-q)
        | .inf _ => .inf true
        | v => v)
    | '+' :: r => core r
    | _ => core s

/-- `Decimal.__sub__` under the default context: a signalling-NaN operand
or `∞ - ∞` with equal signs signals `InvalidOperation` (trapped by
default, so it raises); a quiet NaN propagates; an infinity dominates a
finite value; finite values subtract exactly.  (The default context's
28-significant-digit rounding of the exact difference never changes its
sign or zero-ness, which is all the recipes observe of it; the difference
is therefore modelled exactly.) -/
def decSub : PyDec → PyDec → Except PyErr PyDec
  | .snan, _ => .error .invalidOperation
  | _, .snan => .error .invalidOperation
  | .nan, _ => .ok .nan
  | _, .nan => .ok .nan
  | .inf s1, .inf s2 =>
    if s1 = s2 then .error .invalidOperation else .ok (.inf s1)
  | .inf s1, .fin _ => .ok (.inf s1)
  | .fin _, .inf s2 => .ok (.inf (!s2))
  | .fin p, .fin q => .ok (.fin (p - q))

/-- Python float `x <= y` on the modelled values: any comparison
involving a NaN is `False`. -/
def pdLe : PyDec → PyDec → Bool
  | .fin p, .fin q => decide (p ≤ q)
  | .fin _, .inf s => !s
  | .inf s, .fin _ => s
  | .inf s1, .inf s2 => s1 || !s2
  | _, _ => false

/-- Python float `x >= y`. -/
def pdGe (x y : PyDec) : Bool := pdLe y x

/-- Python float addition on the modelled values, for the validation
bound `start + duration`: NaN propagates, `∞ + (-∞)` is NaN (float
arithmetic raises nothing), an infinity dominates a finite value. -/
def pdAdd : PyDec → PyDec → PyDec
  | .fin p, .fin q => .fin (p + q)
  | .inf s1, .inf s2 => if s1 = s2 then .inf s1 else .nan
  | .inf s, .fin _ => .inf s
  | .fin _, .inf s => .inf s
  | _, _ => .nan

/-- A supervision segment of the callhome tab recipes with the stored
float values kept in `PyDec` form, so that the NaN and infinite values
the loops can produce are representable. -/
structure TabSeg where
  id : Str
  recording_id : Str
  start : PyDec
  duration : PyDec
  channel : ℤ
  text : Str
  speaker : SpeakerId
deriving DecidableEq

/-- One iteration of the tab transcript-line loop shared character for
character by `prepare_callhome_gulf` (lines 64-101) and
`prepare_callhome_iraqi` (lines 78-119), over the full `Decimal` and
`float` string grammars, parameterised by the recipe's `cleaning` and the
already-computed recording id.  `duration = float(Decimal(end) -
Decimal(start))` keeps NaN and infinities — `nan <= 0` is `False`, so
such a line is appended, not skipped — and `start = float(start)`
reparses the raw token with `float`'s own grammar (so a payload NaN that
`Decimal` accepted raises `ValueError` there).  The source order is kept:
Decimal parse and subtraction, cleaning, the skip guard, the channel
(`ord` may raise `TypeError`), then the `float(start)` conversion. -/
def tabLineCore (clean : Str → Str) (split : GulfSplit) (textCleaning : Bool)
    (recId : Str) (idx : ℕ) (rawLine : Str) : Except PyErr (Option TabSeg) :=
  let line := pyStrip rawLine
  if line = [] ∨ (splitOnChar '\t' line).length < 4 then .ok none
  else
    match splitOnChar '\t' line with
    | [timeF, spkF, textF, _textBW] =>
      let time := timeF.filter (fun c => !(c = '[' || c = ']'))
      match splitWS time with
      | [startS, endS] =>
        let spk := (spkF.filter (fun c => !(c = ':'))).filter
          (fun c => !isAsciiDigit c)
        match parseDecimal endS, parseDecimal startS with
        | some de, some ds =>
          match decSub de ds with
          | .error e => .error e
          | .ok dur =>
            let text := if textCleaning then clean textF else textF
            if pdLe dur (.fin 0) = true ∨ text = [] then .ok none
            else
              match gulfChannel split spk with
              | .error e => .error e
              | .ok ch =>
                match pyFloat? startS with
                | none => .error .valueError
                | some st =>
                  .ok (some
                    { id := recId ++ '_' :: (pads2 spk ++ '_' :: pad5 idx)
                      recording_id := recId
                      start := st
                      duration := dur
                      channel := ch
                      text := text
                      speaker := .str (recId ++ '_' :: pads2 spk) })
        | _, _ => .error .invalidOperation
      | _ => .error .valueError
    | _ => .error .valueError

/-- The gulf line loop (callhome_gulf.py lines 64-101): the recording id
is the raw stem. -/
def gulfLineFull (split : GulfSplit) (textCleaning : Bool) (stem : Str)
    (idx : ℕ) (rawLine : Str) : Except PyErr (Option TabSeg) :=
  tabLineCore gulfCleaning split textCleaning stem idx rawLine

/-- The iraqi line loop (callhome_iraqi.py lines 78-119): identical to
the gulf loop apart from the iraqi `cleaning` and the lower-cased stem
(line 82). -/
def iraqiLineFull (split : GulfSplit) (textCleaning : Bool) (stem : Str)
    (idx : ℕ) (rawLine : Str) : Except PyErr (Option TabSeg) :=
  tabLineCore iraqiCleaning split textCleaning (stem.map pyLower) idx rawLine

/-- One iteration of the levant transcript-line loop
(callhome_levant.py lines 91-122) over the full grammars: guard on the
full whitespace split, `maxsplit=3` unpacking, lower-cased stem,
colon-only speaker stripping (digits kept), `float(start)` before the
channel (lines 105-107), and the channel always `ord(spk) - ord("A")`. -/
def levLineFull (textCleaning : Bool) (stem : Str) (idx : ℕ)
    (rawLine : Str) : Except PyErr (Option TabSeg) :=
  let line := pyStrip rawLine
  if line = [] ∨ (splitWS line).length < 4 then .ok none
  else
    match splitWSMax 3 line with
    | [startS, endS, spkF, textF] =>
      let recId := stem.map pyLower
      let spk := spkF.filter (fun c => !(c = ':'))
      match parseDecimal endS, parseDecimal startS with
      | some de, some ds =>
        match decSub de ds with
        | .error e => .error e
        | .ok dur =>
          let text := if textCleaning then levantCleaning textF else textF
          if pdLe dur (.fin 0) = true ∨ text = [] then .ok none
          else
            match pyFloat? startS with
            | none => .error .valueError
            | some st =>
              match (pyOrd spk).map (fun n => (n : ℤ) - 65) with
              | .error e => .error e
              | .ok ch =>
                .ok (some
                  { id := recId ++ '_' :: (pads2 spk ++ '_' :: pad5 idx)
                    recording_id := recId
                    start := st
                    duration := dur
                    channel := ch
                    text := text
                    speaker := .str (recId ++ '_' :: pads2 spk) })
      | _, _ => .error .invalidOperation
    | _ => .error .valueError

/-- The per-transcript-file loop over a tab line function: `idx` starts
at 0 and increments only when a segment is appended; any exception aborts
the whole preparation call. -/
def tabLoop (lineF : ℕ → Str → Except PyErr (Option TabSeg)) :
    ℕ → List Str → Except PyErr (List TabSeg)
  | _, [] => .ok []
  | idx, l :: ls =>
    match lineF idx l with
    | .error e => .error e
    | .ok none => tabLoop lineF idx ls
    | .ok (some seg) =>
      match tabLoop lineF (idx + 1) ls with
      | .error e => .error e
      | .ok segs => .ok (seg :: segs)

/-- The loop over the transcript files of one split: each file is a
(stem, lines) pair, and the per-file supervisions are concatenated. -/
def tabFiles (lineFOf : Str → ℕ → Str → Except PyErr (Option TabSeg)) :
    List (Str × List Str) → Except PyErr (List TabSeg)
  | [] => .ok []
  | (stem, ls) :: rest =>
    match tabLoop (lineFOf stem) 0 ls with
    | .error e => .error e
    | .ok segs =>
      match tabFiles lineFOf rest with
      | .error e => .error e
      | .ok more => .ok (segs ++ more)

/-- Modelled from the spec: §4.4 ManifestAssembler "fix" over the tab
segments — supervisions whose `recording_id` has no matching recording
are dropped (as in `fixManifests`). -/
def fixTab (recs : List RecordingInfo) (sups : List TabSeg) : List TabSeg :=
  sups.filter (fun s => recs.any (fun r => r.id = s.recording_id))

/-- Modelled from the spec: §4.4 validate over the tab segments, with the
numeric checks carried out in Python float semantics (`pdGe`/`pdLe`/
`pdAdd`), where every comparison against NaN is `False`: a NaN or
infinite start or duration fails the `start ≥ 0` or
`start + duration ≤ rec.duration + eps` check, so the call raises. -/
def validateTab (eps : ℚ) (recs : List RecordingInfo)
    (sups : List TabSeg) : Except PyErr Unit :=
  if sups.all (fun s => recs.any (fun r =>
      decide (r.id = s.recording_id) &&
      decide (0 ≤ s.channel) && decide (s.channel < (r.numChannels : ℤ)) &&
      pdGe s.start (.fin 0) &&
      pdLe (pdAdd s.start s.duration) (.fin (r.duration + eps))))
  then .ok () else .error .assertionError

/-- A tab recipe's supervision pipeline for one split: the per-file line
loops, then fix and validate against the recordings (callhome_gulf.py
lines 61-106, callhome_iraqi.py lines 75-124, callhome_levant.py lines
86-127). -/
def tabPrepare (lineFOf : Str → ℕ → Str → Except PyErr (Option TabSeg))
    (eps : ℚ) (recs : List RecordingInfo)
    (files : List (Str × List Str)) : Except PyErr (List TabSeg) :=
  match tabFiles lineFOf files with
  | .error e => .error e
  | .ok sups =>
    let fixed := fixTab recs sups
    match validateTab eps recs fixed with
    | .error e => .error e
    | .ok _ => .ok fixed

/-- The gulf supervision pipeline for one split. -/
def gulfPrepareSups (eps : ℚ) (split : GulfSplit) (textCleaning : Bool)
    (recs : List RecordingInfo) (files : List (Str × List Str)) :
    Except PyErr (List TabSeg) :=
  tabPrepare (fun stem => gulfLineFull split textCleaning stem) eps recs files

/-- The iraqi supervision pipeline for one split. -/
def iraqiPrepareSups (eps : ℚ) (split : GulfSplit) (textCleaning : Bool)
    (recs : List RecordingInfo) (files : List (Str × List Str)) :
    Except PyErr (List TabSeg) :=
  tabPrepare (fun stem => iraqiLineFull split textCleaning stem) eps recs files

/-- The levant supervision pipeline. -/
def levPrepareSups (eps : ℚ) (textCleaning : Bool)
    (recs : List RecordingInfo) (files : List (Str × List Str)) :
    Except PyErr (List TabSeg) :=
  tabPrepare (fun stem => levLineFull textCleaning stem) eps recs files

/-- Every segment appended by the shared tab line loop passed the skip
guard: its duration is not `<= 0` in float semantics and its (cleaned)
text is non-empty. -/
theorem tabLineCore_guard {clean : Str → Str} {split : GulfSplit}
    {tc : Bool} {recId : Str} {idx : ℕ} {l : Str} {seg : TabSeg}
    (h : tabLineCore clean split tc recId idx l = .ok (some seg)) :
    pdLe seg.duration (.fin 0) = false ∧ seg.text ≠ [] := by
  simp only [tabLineCore] at h
  split at h
  · exact absurd h (by simp)
  · split at h
    · rename_i timeF spkF textF textBW hfields
      split at h
      · rename_i startS endS htime
        split at h
        · rename_i de ds hde hds
          split at h
          · exact absurd h (by simp)
          · rename_i dur hdur
            split at h
            all_goals (
              split at h
              · exact absurd h (by simp)
              · rename_i hnot
                split at h
                · exact absurd h (by simp)
                · rename_i ch hch
                  split at h
                  · exact absurd h (by simp)
                  · rename_i st hst
                    simp only [Except.ok.injEq, Option.some.injEq] at h
                    subst h
                    push_neg at hnot
                    exact ⟨by simpa using hnot.1, hnot.2⟩)
        · exact absurd h (by simp)
      · exact absurd h (by simp)
    · exact absurd h (by simp)

/-- Every segment appended by the levant line loop passed the skip
guard. -/
theorem levLineFull_guard {tc : Bool} {stem : Str} {idx : ℕ} {l : Str}
    {seg : TabSeg}
    (h : levLineFull tc stem idx l = .ok (some seg)) :
    pdLe seg.duration (.fin 0) = false ∧ seg.text ≠ [] := by
  simp only [levLineFull] at h
  split at h
  · exact absurd h (by simp)
  · split at h
    · rename_i startS endS spkF textF hfields
      split at h
      · rename_i de ds hde hds
        split at h
        · exact absurd h (by simp)
        · rename_i dur hdur
          by_cases hg : (pdLe dur (PyDec.fin 0) = true ∨
              (if tc = true then levantCleaning textF else textF) = [])
          · rw [if_pos hg] at h
            exact absurd h (by simp)
          · rw [if_neg hg] at h
            push_neg at hg
            split at h
            · exact absurd h (by simp)
            · rename_i st hst
              split at h
              · exact absurd h (by simp)
              · rename_i ch hch
                simp only [Except.ok.injEq, Option.some.injEq] at h
                subst h
                exact ⟨by simpa using hg.1, hg.2⟩
      · exact absurd h (by simp)
    · exact absurd h (by simp)

/-- The loop invariant: every segment in a successful per-file loop
passed the skip guard. -/
theorem tabLoop_guard {lineF : ℕ → Str → Except PyErr (Option TabSeg)}
    (hline : ∀ idx l seg, lineF idx l = .ok (some seg) →
      pdLe seg.duration (.fin 0) = false ∧ seg.text ≠ []) :
    ∀ (ls : List Str) (idx : ℕ) (segs : List TabSeg),
      tabLoop lineF idx ls = .ok segs →
      ∀ sg ∈ segs, pdLe sg.duration (.fin 0) = false ∧ sg.text ≠ [] := by
  intro ls
  induction ls with
  | nil =>
    intro idx segs h sg hsg
    simp only [tabLoop, Except.ok.injEq] at h
    subst h
    simp at hsg
  | cons l ls ih =>
    intro idx segs h sg hsg
    simp only [tabLoop] at h
    split at h
    · exact absurd h (by simp)
    · exact ih idx segs h sg hsg
    · rename_i seg0 hl
      split at h
      · exact absurd h (by simp)
      · rename_i segs0 hrec
        simp only [Except.ok.injEq] at h
        subst h
        rcases List.mem_cons.mp hsg with hEq | hmem
        · subst hEq
          exact hline idx l sg hl
        · exact ih (idx + 1) segs0 hrec sg hmem

/-- The multi-file loop invariant. -/
theorem tabFiles_guard
    {lineFOf : Str → ℕ → Str → Except PyErr (Option TabSeg)}
    (hline : ∀ stem idx l seg, lineFOf stem idx l = .ok (some seg) →
      pdLe seg.duration (.fin 0) = false ∧ seg.text ≠ []) :
    ∀ (files : List (Str × List Str)) (segs : List TabSeg),
      tabFiles lineFOf files = .ok segs →
      ∀ sg ∈ segs, pdLe sg.duration (.fin 0) = false ∧ sg.text ≠ [] := by
  intro files
  induction files with
  | nil =>
    intro segs h sg hsg
    simp only [tabFiles, Except.ok.injEq] at h
    subst h
    simp at hsg
  | cons f rest ih =>
    intro segs h sg hsg
    simp only [tabFiles] at h
    split at h
    · exact absurd h (by simp)
    · rename_i segs1 h1
      split at h
      · exact absurd h (by simp)
      · rename_i more h2
        simp only [Except.ok.injEq] at h
        subst h
        rcases List.mem_append.mp hsg with hmem | hmem
        · exact tabLoop_guard (hline f.1) f.2 0 segs1 h1 sg hmem
        · exact ih more h2 sg hmem

/-- Inversion of the tab validation: every validated segment references a
recording and passes the float-semantics checks. -/
theorem validateTab_inv {eps : ℚ} {recs : List RecordingInfo}
    {sups : List TabSeg} (h : validateTab eps recs sups = .ok ())
    {sg : TabSeg} (hm : sg ∈ sups) :
    ∃ r ∈ recs, r.id = sg.recording_id ∧ 0 ≤ sg.channel ∧
      sg.channel < (r.numChannels : ℤ) ∧ pdGe sg.start (.fin 0) = true ∧
      pdLe (pdAdd sg.start sg.duration) (.fin (r.duration + eps)) = true := by
  unfold validateTab at h
  split at h
  · rename_i hall
    obtain ⟨r, hr, hpred⟩ :=
      List.any_eq_true.mp (List.all_eq_true.mp hall sg hm)
    simp only [Bool.and_eq_true, decide_eq_true_eq] at hpred
    exact ⟨r, hr, hpred.1.1.1.1, hpred.1.1.1.2, hpred.1.1.2, hpred.1.2,
      hpred.2⟩
  · exact absurd h (by simp)

/-- Classification: a value that passed the skip guard
(`not (duration <= 0)`), the validation sign check (`start >= 0`) and the
validation fit check (`start + duration <= bound`) in Python float
semantics is a finite non-negative start with a finite positive duration
— NaN and infinities fail one of the three. -/
theorem pd_invariants {st dur : PyDec} {B : ℚ}
    (hdur : pdLe dur (.fin 0) = false)
    (hge : pdGe st (.fin 0) = true)
    (hfit : pdLe (pdAdd st dur) (.fin B) = true) :
    (∃ p, st = .fin p ∧ 0 ≤ p) ∧ ∃ q, dur = .fin q ∧ 0 < q := by
  cases st with
  | fin p =>
    cases dur with
    | fin q =>
      refine ⟨⟨p, rfl, ?_⟩, ⟨q, rfl, ?_⟩⟩
      · simpa [pdGe, pdLe] using hge
      · have hq : ¬ q ≤ 0 := by simpa [pdLe] using hdur
        exact lt_of_not_le hq
    | nan => simp [pdAdd, pdLe] at hfit
    | snan => simp [pdAdd, pdLe] at hfit
    | inf s =>
      cases s
      · simp [pdAdd, pdLe] at hfit
      · simp [pdLe] at hdur
  | nan => simp [pdGe, pdLe] at hge
  | snan => simp [pdGe, pdLe] at hge
  | inf s =>
    cases s
    · cases dur with
      | fin q => simp [pdAdd, pdLe] at hfit
      | nan => simp [pdAdd, pdLe] at hfit
      | snan => simp [pdAdd, pdLe] at hfit
      | inf s2 =>
        cases s2
        · simp [pdAdd, pdLe] at hfit
        · simp [pdLe] at hdur
    · simp [pdGe, pdLe] at hge

/-- The pipeline invariant for any tab recipe whose line loop satisfies
the skip guard: every segment of a successfully returned manifest has a
finite positive duration, a finite non-negative start, and non-empty
text. -/
theorem tabPrepare_invariants
    {lineFOf : Str → ℕ → Str → Except PyErr (Option TabSeg)}
    (hline : ∀ stem idx l seg, lineFOf stem idx l = .ok (some seg) →
      pdLe seg.duration (.fin 0) = false ∧ seg.text ≠ [])
    {eps : ℚ} {recs : List RecordingInfo} {files : List (Str × List Str)}
    {segs : List TabSeg}
    (h : tabPrepare lineFOf eps recs files = .ok segs) :
    ∀ sg ∈ segs, (∃ q, sg.duration = PyDec.fin q ∧ 0 < q) ∧
      (∃ p, sg.start = PyDec.fin p ∧ 0 ≤ p) ∧ sg.text ≠ [] := by
  simp only [tabPrepare] at h
  split at h
  · exact absurd h (by simp)
  · rename_i sups hfiles
    split at h
    · exact absurd h (by simp)
    · rename_i u hval
      simp only [Except.ok.injEq] at h
      subst h
      intro sg hsg
      have hmem : sg ∈ sups := (List.mem_filter.mp hsg).1
      have hg := tabFiles_guard hline files sups hfiles sg hmem
      obtain ⟨r, hr, -, -, -, hge, hfit⟩ :=
        validateTab_inv (by cases u; exact hval) hsg
      obtain ⟨hstart, hdur⟩ := pd_invariants hg.1 hge hfit
      exact ⟨hdur, hstart, hg.2⟩

unseal Rat.mul Rat.add Rat.inv Rat.sub in
/-- C2 (amended): every supervision in a successfully returned (and
persisted) manifest of the gulf, iraqi and levant tab pipelines has a
finite positive duration, a finite non-negative start, and non-empty
(cleaned) text.  The line loops themselves can append segments with NaN
or infinite start/duration — a `[NaN] [NaN]` timestamp line is appended,
not skipped, because `nan <= 0` is `False` (fourth conjunct) — but
validation rejects every manifest holding one, so such a call raises
instead of emitting.  The qasr pipeline guarantees positive duration and
non-negative start, but not non-empty text, because
`transform_text(cleaning)` runs after the duration filter (see the
counterexample). -/
theorem c2_emitted_segment_invariants :
    (∀ (eps : ℚ) (split : GulfSplit) (tc : Bool)
       (recs : List RecordingInfo) (files : List (Str × List Str))
       (segs : List TabSeg),
      gulfPrepareSups eps split tc recs files = .ok segs →
      ∀ sg ∈ segs, (∃ q, sg.duration = PyDec.fin q ∧ 0 < q) ∧
        (∃ p, sg.start = PyDec.fin p ∧ 0 ≤ p) ∧ sg.text ≠ []) ∧
    (∀ (eps : ℚ) (split : GulfSplit) (tc : Bool)
       (recs : List RecordingInfo) (files : List (Str × List Str))
       (segs : List TabSeg),
      iraqiPrepareSups eps split tc recs files = .ok segs →
      ∀ sg ∈ segs, (∃ q, sg.duration = PyDec.fin q ∧ 0 < q) ∧
        (∃ p, sg.start = PyDec.fin p ∧ 0 ≤ p) ∧ sg.text ≠ []) ∧
    (∀ (eps : ℚ) (tc : Bool) (recs : List RecordingInfo)
       (files : List (Str × List Str)) (segs : List TabSeg),
      levPrepareSups eps tc recs files = .ok segs →
      ∀ sg ∈ segs, (∃ q, sg.duration = PyDec.fin q ∧ 0 < q) ∧
        (∃ p, sg.start = PyDec.fin p ∧ 0 ≤ p) ∧ sg.text ≠ []) ∧
    (gulfLineFull GulfSplit.train1c false "x".data 0
        "[NaN] [NaN]\tA:\thi\tbw".data =
      .ok (some { id := "x_0A_00000".data, recording_id := "x".data,
                  start := PyDec.nan, duration := PyDec.nan, channel := 0,
                  text := "hi".data, speaker := .str "x_0A".data }) ∧
     gulfPrepareSups 0 GulfSplit.train1c false
        [{ id := "x".data, duration := 10, numChannels := 1 }]
        [("x".data, ["[NaN] [NaN]\tA:\thi\tbw".data])] =
      .error .assertionError) ∧
    (∀ (eps : ℚ) (expected : Option ℕ) (tc : Bool)
       (recs : List RecordingInfo) (lines : List Str)
       (segs : List SupervisionSegment),
      qasrPrepareSups eps expected tc recs lines = .ok segs →
      ∀ sg ∈ segs, 0 < sg.duration ∧ 0 ≤ sg.start) := by
  refine ⟨?_, ?_, ?_, ⟨by decide, by decide⟩, ?_⟩
  · intro eps split tc recs files segs h
    exact tabPrepare_invariants
      (fun stem idx l seg hl => tabLineCore_guard hl) h
  · intro eps split tc recs files segs h
    exact tabPrepare_invariants
      (fun stem idx l seg hl => tabLineCore_guard hl) h
  · intro eps tc recs files segs h
    exact tabPrepare_invariants
      (fun stem idx l seg hl => levLineFull_guard hl) h
  · intro eps expected tc recs lines segs h
    exact qasrSups_invariants h

unseal Rat.mul Rat.add Rat.inv Rat.sub in
/-- C2 witness: well-formed gulf, iraqi, levant and qasr inputs whose
pipelines succeed, instantiating each invariant at the single returned
segment. -/
theorem c2_emitted_segment_invariants_witness :
    ((∃ q, ({ id := "x_0A_00000".data, recording_id := "x".data,
              start := PyDec.fin 0, duration := PyDec.fin 1, channel := 0,
              text := "hi".data, speaker := .str "x_0A".data } :
             TabSeg).duration = PyDec.fin q ∧ 0 < q) ∧
     (∃ p, ({ id := "x_0A_00000".data, recording_id := "x".data,
              start := PyDec.fin 0, duration := PyDec.fin 1, channel := 0,
              text := "hi".data, speaker := .str "x_0A".data } :
             TabSeg).start = PyDec.fin p ∧ 0 ≤ p) ∧
     ({ id := "x_0A_00000".data, recording_id := "x".data,
        start := PyDec.fin 0, duration := PyDec.fin 1, channel := 0,
        text := "hi".data, speaker := .str "x_0A".data } :
       TabSeg).text ≠ []) ∧
    ((∃ q, ({ id := "y_0B_00000".data, recording_id := "y".data,
              start := PyDec.fin (1 / 2), duration := PyDec.fin (3 / 2),
              channel := 1, text := "hi".data,
              speaker := .str "y_0B".data } :
             TabSeg).duration = PyDec.fin q ∧ 0 < q) ∧
     (∃ p, ({ id := "y_0B_00000".data, recording_id := "y".data,
              start := PyDec.fin (1 / 2), duration := PyDec.fin (3 / 2),
              channel := 1, text := "hi".data,
              speaker := .str "y_0B".data } :
             TabSeg).start = PyDec.fin p ∧ 0 ≤ p) ∧
     ({ id := "y_0B_00000".data, recording_id := "y".data,
        start := PyDec.fin (1 / 2), duration := PyDec.fin (3 / 2),
        channel := 1, text := "hi".data, speaker := .str "y_0B".data } :
       TabSeg).text ≠ []) ∧
    ((∃ q, ({ id := "x_0A_00000".data, recording_id := "x".data,
              start := PyDec.fin (1 / 4), duration := PyDec.fin 1,
              channel := 0, text := "hi".data,
              speaker := .str "x_0A".data } :
             TabSeg).duration = PyDec.fin q ∧ 0 < q) ∧
     (∃ p, ({ id := "x_0A_00000".data, recording_id := "x".data,
              start := PyDec.fin (1 / 4), duration := PyDec.fin 1,
              channel := 0, text := "hi".data,
              speaker := .str "x_0A".data } :
             TabSeg).start = PyDec.fin p ∧ 0 ≤ p) ∧
     ({ id := "x_0A_00000".data, recording_id := "x".data,
        start := PyDec.fin (1 / 4), duration := PyDec.fin 1, channel := 0,
        text := "hi".data, speaker := .str "x_0A".data } :
       TabSeg).text ≠ []) ∧
    (0 < ({ id := "rec_1_100_200".data, recording_id := "rec".data,
            start := 1, duration := 1, channel := 0, text := "hi".data,
            speaker := .num 1,
            language := some "ar".data } : SupervisionSegment).duration ∧
     0 ≤ ({ id := "rec_1_100_200".data, recording_id := "rec".data,
            start := 1, duration := 1, channel := 0, text := "hi".data,
            speaker := .num 1,
            language := some "ar".data } : SupervisionSegment).start) :=
  ⟨c2_emitted_segment_invariants.1 0 GulfSplit.devtest false
      [{ id := "x".data, duration := 10, numChannels := 2 }]
      [("x".data, ["[0.0] [1.0]\tA:\thi\tbw".data])]
      [{ id := "x_0A_00000".data, recording_id := "x".data,
         start := PyDec.fin 0, duration := PyDec.fin 1, channel := 0,
         text := "hi".data, speaker := .str "x_0A".data }] (by decide)
      { id := "x_0A_00000".data, recording_id := "x".data,
        start := PyDec.fin 0, duration := PyDec.fin 1, channel := 0,
        text := "hi".data, speaker := .str "x_0A".data } (by simp),
   c2_emitted_segment_invariants.2.1 0 GulfSplit.devtest true
      [{ id := "y".data, duration := 10, numChannels := 2 }]
      [("Y".data, ["[0.5] [2.0]\tB:\thi\tbw".data])]
      [{ id := "y_0B_00000".data, recording_id := "y".data,
         start := PyDec.fin (1 / 2), duration := PyDec.fin (3 / 2),
         channel := 1, text := "hi".data, speaker := .str "y_0B".data }]
      (by decide)
      { id := "y_0B_00000".data, recording_id := "y".data,
        start := PyDec.fin (1 / 2), duration := PyDec.fin (3 / 2),
        channel := 1, text := "hi".data, speaker := .str "y_0B".data }
      (by simp),
   c2_emitted_segment_invariants.2.2.1 0 true
      [{ id := "x".data, duration := 10, numChannels := 2 }]
      [("X".data, ["0.25 1.25 A: hi".data])]
      [{ id := "x_0A_00000".data, recording_id := "x".data,
         start := PyDec.fin (1 / 4), duration := PyDec.fin 1, channel := 0,
         text := "hi".data, speaker := .str "x_0A".data }] (by decide)
      { id := "x_0A_00000".data, recording_id := "x".data,
        start := PyDec.fin (1 / 4), duration := PyDec.fin 1, channel := 0,
        text := "hi".data, speaker := .str "x_0A".data } (by simp),
   c2_emitted_segment_invariants.2.2.2.2 0 none false
      [{ id := "rec".data, duration := 10, numChannels := 1 }]
      ["rec_spk-1_seg-100:200 hi".data]
      [{ id := "rec_1_100_200".data, recording_id := "rec".data,
         start := 1, duration := 1, channel := 0, text := "hi".data,
         speaker := .num 1, language := some "ar".data }] (by decide)
      { id := "rec_1_100_200".data, recording_id := "rec".data,
        start := 1, duration := 1, channel := 0, text := "hi".data,
        speaker := .num 1, language := some "ar".data } (by simp)⟩
